import Mathlib

/-!
Verification of the Smart-Split settlement engine
(`server/utils/graphAlgo.js`: `calculateNetBalances` and `simplifyDebts`).

JavaScript objects keyed by user id are modelled as ordered association
lists `List (Participant × ℚ)` (JS objects preserve string-key insertion
order, and `Object.entries` iterates in that order); JS numbers are
modelled as rationals.  `Array.prototype.sort` with a numeric comparator
is a stable sort, modelled by a stable insertion sort.  The in-place
index-advancing greedy loop of `simplifyDebts` is modelled by structural
recursion on the two (suffix) lists with an explicit fuel argument equal
to the bound `givers.length + receivers.length`; fuel sufficiency is
proved below (claim C9).
-/

abbrev Participant := String

/-- A NetBalance map, in JS-object entry order. -/
abbrev NetBalance := List (Participant × ℚ)

/-- An expense record as consumed by `calculateNetBalances`
(`amount`, `paidBy`, `splitBetween`). -/
structure Expense where
  amount : ℚ
  paidBy : Participant
  splitBetween : List Participant

/-- A settlement edge `{from, to, amount}` as produced by `simplifyDebts`. -/
structure SettlementEdge where
  from_ : Participant
  to_ : Participant
  amount : ℚ

/-- `balances[k] = f(balances[k])` guarded by `balances[k] !== undefined`:
update the entry for key `k` when present, otherwise do nothing. -/
def updIfPresent (b : NetBalance) (k : Participant) (f : ℚ → ℚ) : NetBalance :=
  b.map fun p => if p.1 = k then (p.1, f p.2) else p

/-- Step 1 of `calculateNetBalances`: `balances[memberId.toString()] = 0`
for each roster member, in order.  Re-assigning an existing key leaves the
object unchanged (the value is already 0 and the position is kept). -/
def initBalances (groupMembers : List Participant) : NetBalance :=
  groupMembers.foldl (fun b m => if m ∈ b.map Prod.fst then b else b ++ [(m, 0)]) []

/-- `involvedIds`: `splitBetween` when non-empty, else the full roster. -/
def involvedOf (groupMembers : List Participant) (e : Expense) : List Participant :=
  if e.splitBetween.length > 0 then e.splitBetween else groupMembers

/-- Processing of a single expense inside `calculateNetBalances`:
credit the payer with the full amount, then debit each involved id by
`splitAmount = amount / involvedIds.length`, all guarded by key presence. -/
def applyExpense (groupMembers : List Participant) (b : NetBalance) (e : Expense) :
    NetBalance :=
  let involvedIds := involvedOf groupMembers e
  let splitAmount := e.amount / (involvedIds.length : ℚ)
  let credited := updIfPresent b e.paidBy (fun x => x + e.amount)
  involvedIds.foldl (fun acc i => updIfPresent acc i (fun x => x - splitAmount)) credited

/-- `calculateNetBalances(expenses, groupMembers)`. -/
def calculateNetBalances (expenses : List Expense) (groupMembers : List Participant) :
    NetBalance :=
  expenses.foldl (applyExpense groupMembers) (initBalances groupMembers)

/-- The tolerance `0.01` used throughout `simplifyDebts`. -/
def eps : ℚ := 1 / 100

/-- `Number(x.toFixed(2))` for the positive amounts emitted by the loop:
round to the nearest multiple of `0.01`, half away from zero. -/
def round2 (q : ℚ) : ℚ := (Int.floor (q * 100 + 1 / 2) : ℚ) / 100

/-- The `givers` array: entries with `amount < -0.01`, in entry order. -/
def giversOf (nb : NetBalance) : List (Participant × ℚ) :=
  nb.filter fun p => decide (p.2 < -eps)

/-- The `receivers` array: entries with `amount > 0.01`, in entry order. -/
def receiversOf (nb : NetBalance) : List (Participant × ℚ) :=
  nb.filter fun p => decide (p.2 > eps)

/-- Stable insertion step for the ascending sort
`givers.sort((a, b) => a.amount - b.amount)`. -/
def insertGiver (x : Participant × ℚ) :
    List (Participant × ℚ) → List (Participant × ℚ)
  | [] => [x]
  | y :: ys => if x.2 ≤ y.2 then x :: y :: ys else y :: insertGiver x ys

/-- Stable ascending sort by amount. -/
def sortGivers (l : List (Participant × ℚ)) : List (Participant × ℚ) :=
  l.foldr insertGiver []

/-- Stable insertion step for the descending sort
`receivers.sort((a, b) => b.amount - a.amount)`. -/
def insertReceiver (x : Participant × ℚ) :
    List (Participant × ℚ) → List (Participant × ℚ)
  | [] => [x]
  | y :: ys => if y.2 ≤ x.2 then x :: y :: ys else y :: insertReceiver x ys

/-- Stable descending sort by amount. -/
def sortReceivers (l : List (Participant × ℚ)) : List (Participant × ℚ) :=
  l.foldr insertReceiver []

/-- The greedy matching `while` loop of `simplifyDebts`.  The two list
arguments are the suffixes of `givers`/`receivers` from `giverIdx` /
`receiverIdx` on, with the head entries carrying their current (mutated)
amounts.  One recursive step is one loop iteration:
`amountToSettle = min(|giver.amount|, receiver.amount)`; an edge is pushed
when `amountToSettle > 0.01`; both head amounts are adjusted; a head is
dropped when its adjusted amount satisfies `|giver.amount| < 0.01`
(resp. `receiver.amount < 0.01`).  `fuel` bounds the iteration count. -/
def matchLoop :
    Nat → List (Participant × ℚ) → List (Participant × ℚ) → List SettlementEdge
  | 0, _, _ => []
  | _ + 1, [], _ => []
  | _ + 1, _ :: _, [] => []
  | fuel + 1, g :: gs, r :: rs =>
      let amountToSettle := min (|g.2|) r.2
      let emitted : List SettlementEdge :=
        if amountToSettle > eps then [⟨g.1, r.1, round2 amountToSettle⟩] else []
      let g2 := g.2 + amountToSettle
      let r2 := r.2 - amountToSettle
      let gs2 := if |g2| < eps then gs else (g.1, g2) :: gs
      let rs2 := if r2 < eps then rs else (r.1, r2) :: rs
      emitted ++ matchLoop fuel gs2 rs2

/-- `simplifyDebts(netBalances)`: partition, sort both sides, run the
greedy loop.  The fuel `givers.length + receivers.length` is enough: the
loop drops at least one participant per iteration (proved below). -/
def simplifyDebts (netBalances : NetBalance) : List SettlementEdge :=
  let givers := sortGivers (giversOf netBalances)
  let receivers := sortReceivers (receiversOf netBalances)
  matchLoop (givers.length + receivers.length) givers receivers

/-- Keys of a balance map, in entry order. -/
def balKeys (b : NetBalance) : List Participant := b.map Prod.fst

/-- Sum of all balances of a map. -/
def sumBal (b : NetBalance) : ℚ := (b.map Prod.snd).sum

/-- `balances[k]`, defaulting to 0 for a missing key. -/
def getBal : NetBalance → Participant → ℚ
  | [], _ => 0
  | p :: b, k => if p.1 = k then p.2 else getBal b k

/-- Total amount of the edges leaving `k` (edges with `from = k`). -/
def emittedFrom (es : List SettlementEdge) (k : Participant) : ℚ :=
  ((es.filter fun e => decide (e.from_ = k)).map SettlementEdge.amount).sum

/-- Total amount of the edges entering `k` (edges with `to = k`). -/
def emittedTo (es : List SettlementEdge) (k : Participant) : ℚ :=
  ((es.filter fun e => decide (e.to_ = k)).map SettlementEdge.amount).sum

/-- Applying a settlement plan back against a balance map, in the sense of
the spec's settlement-correctness property: each edge adds its amount to
the debtor's (`from`) balance and subtracts it from the creditor's (`to`)
balance. -/
def applyEdges (nb : NetBalance) (es : List SettlementEdge) : NetBalance :=
  nb.map fun p => (p.1, p.2 + emittedFrom es p.1 - emittedTo es p.1)

/-- A whole-cent amount: an integer multiple of `0.01`. -/
def centQ (q : ℚ) : Prop := ∃ n : ℤ, q = n / 100

/-! ### Spec-side algorithm for claim C3

Claim C3 describes `simplifyDebts` in words.  The partition thresholds
(`balance < -0.01` / `balance > +0.01`), the two sort directions, the
settled amount `min(|debtor.balance|, creditor.balance)`, the emission
condition (`amountToSettle` exceeds ε) and the termination condition match
the code directly.  The one phrase needing interpretation is "advancing
past any participant whose balance comes within ε of zero": the claim's
partition clause counts a balance as "within ε of zero" when its magnitude
is at most ε (it excludes exactly the entries with `-ε ≤ balance ≤ ε`), so
the advance rule is modelled inclusively as `|balance| ≤ ε`.  The code
instead advances only on `|giver.amount| < 0.01` / `receiver.amount <
0.01` (strict).  `specMatchWithin` is the claim's loop; `specMatchStrict`
is the same loop with the strict advance rule. -/

/-- The greedy loop as worded by claim C3, advancing past a participant
whose adjusted balance is within ε of zero (inclusive: `|balance| ≤ ε`). -/
def specMatchWithin :
    Nat → List (Participant × ℚ) → List (Participant × ℚ) → List SettlementEdge
  | 0, _, _ => []
  | _ + 1, [], _ => []
  | _ + 1, _ :: _, [] => []
  | fuel + 1, g :: gs, r :: rs =>
      let amountToSettle := min (|g.2|) r.2
      let emitted : List SettlementEdge :=
        if amountToSettle > eps then [⟨g.1, r.1, round2 amountToSettle⟩] else []
      let g2 := g.2 + amountToSettle
      let r2 := r.2 - amountToSettle
      let gs2 := if |g2| ≤ eps then gs else (g.1, g2) :: gs
      let rs2 := if |r2| ≤ eps then rs else (r.1, r2) :: rs
      emitted ++ specMatchWithin fuel gs2 rs2

/-- Claim C3's algorithm, read with the inclusive advance rule: partition
by the ±ε thresholds, sort debtors ascending and creditors descending
(stably), then run the greedy loop. -/
def specSimplifyWithin (nb : NetBalance) : List SettlementEdge :=
  let debtors := sortGivers (nb.filter fun p => decide (p.2 < -eps))
  let creditors := sortReceivers (nb.filter fun p => decide (p.2 > eps))
  specMatchWithin (debtors.length + creditors.length) debtors creditors

/-- The greedy loop as worded by claim C3, but advancing only once a
balance magnitude falls strictly below ε. -/
def specMatchStrict :
    Nat → List (Participant × ℚ) → List (Participant × ℚ) → List SettlementEdge
  | 0, _, _ => []
  | _ + 1, [], _ => []
  | _ + 1, _ :: _, [] => []
  | fuel + 1, g :: gs, r :: rs =>
      let amountToSettle := min (|g.2|) r.2
      let emitted : List SettlementEdge :=
        if amountToSettle > eps then [⟨g.1, r.1, round2 amountToSettle⟩] else []
      let g2 := g.2 + amountToSettle
      let r2 := r.2 - amountToSettle
      let gs2 := if |g2| < eps then gs else (g.1, g2) :: gs
      let rs2 := if |r2| < eps then rs else (r.1, r2) :: rs
      emitted ++ specMatchStrict fuel gs2 rs2

/-- Claim C3's algorithm with the strict advance rule. -/
def specSimplifyStrict (nb : NetBalance) : List SettlementEdge :=
  let debtors := sortGivers (nb.filter fun p => decide (p.2 < -eps))
  let creditors := sortReceivers (nb.filter fun p => decide (p.2 > eps))
  specMatchStrict (debtors.length + creditors.length) debtors creditors

/-! ### Basic arithmetic lemmas -/

theorem eps_pos : 0 < eps := by norm_num [eps]

theorem centQ_add {q r : ℚ} (hq : centQ q) (hr : centQ r) : centQ (q + r) := by
  obtain ⟨m, rfl⟩ := hq
  obtain ⟨n, rfl⟩ := hr
  exact ⟨m + n, by push_cast; ring⟩

theorem centQ_neg {q : ℚ} (hq : centQ q) : centQ (-q) := by
  obtain ⟨m, rfl⟩ := hq
  exact ⟨-m, by push_cast; ring⟩

theorem centQ_sub {q r : ℚ} (hq : centQ q) (hr : centQ r) : centQ (q - r) := by
  simpa [sub_eq_add_neg] using centQ_add hq (centQ_neg hr)

theorem centQ_abs {q : ℚ} (hq : centQ q) : centQ |q| := by
  rcases abs_cases q with ⟨h, _⟩ | ⟨h, _⟩
  · rw [h]; exact hq
  · rw [h]; exact centQ_neg hq

theorem centQ_min {q r : ℚ} (hq : centQ q) (hr : centQ r) : centQ (min q r) := by
  rcases min_cases q r with ⟨h, _⟩ | ⟨h, _⟩
  · rw [h]; exact hq
  · rw [h]; exact hr

theorem centQ_zero : centQ 0 := ⟨0, by norm_num⟩

/-- A nonnegative whole-cent amount below the tolerance is zero. -/
theorem centQ_small {q : ℚ} (hq : centQ q) (h0 : 0 ≤ q) (h1 : q < eps) : q = 0 := by
  obtain ⟨n, rfl⟩ := hq
  have hn0 : (0 : ℚ) ≤ (n : ℚ) := by linarith
  have hn1 : (n : ℚ) < 1 := by
    rw [eps] at h1
    linarith
  have h0' : (0 : ℤ) ≤ n := by exact_mod_cast hn0
  have h1' : n < 1 := by exact_mod_cast hn1
  have : n = 0 := by omega
  simp [this]

/-- A whole-cent amount strictly above the tolerance is at least two cents. -/
theorem centQ_two {q : ℚ} (hq : centQ q) (h1 : eps < q) : 2 / 100 ≤ q := by
  obtain ⟨n, rfl⟩ := hq
  have hn1 : (1 : ℚ) < (n : ℚ) := by
    rw [eps] at h1
    linarith
  have h1' : (1 : ℤ) < n := by exact_mod_cast hn1
  have h2 : (2 : ℤ) ≤ n := by omega
  have : (2 : ℚ) ≤ (n : ℚ) := by exact_mod_cast h2
  linarith

/-- Rounding to two decimals is the identity on whole-cent amounts. -/
theorem round2_centQ {q : ℚ} (hq : centQ q) : round2 q = q := by
  obtain ⟨n, rfl⟩ := hq
  rw [round2]
  have h100 : ((n : ℚ) / 100) * 100 = (n : ℚ) := by ring
  rw [h100]
  have : ⌊(n : ℚ) + 1 / 2⌋ = n := by
    rw [Int.floor_eq_iff]
    constructor
    · linarith
    · linarith
  rw [this]

/-! ### The greedy loop: unfolding and basic shape -/

theorem matchLoop_nil_left (f : ℕ) (rs : List (Participant × ℚ)) :
    matchLoop f [] rs = [] := by
  cases f <;> rfl

theorem matchLoop_nil_right (f : ℕ) (gs : List (Participant × ℚ)) :
    matchLoop f gs [] = [] := by
  cases f <;> cases gs <;> rfl

theorem matchLoop_cons (f : ℕ) (g r : Participant × ℚ)
    (gs rs : List (Participant × ℚ)) :
    matchLoop (f + 1) (g :: gs) (r :: rs) =
      (if min (|g.2|) r.2 > eps then
          [⟨g.1, r.1, round2 (min (|g.2|) r.2)⟩] else []) ++
        matchLoop f
          (if |g.2 + min (|g.2|) r.2| < eps then gs
            else (g.1, g.2 + min (|g.2|) r.2) :: gs)
          (if r.2 - min (|g.2|) r.2 < eps then rs
            else (r.1, r.2 - min (|g.2|) r.2) :: rs) := rfl

/-- Facts about one iteration on a negative giver and a positive receiver:
the settled amount is positive, moves the giver up to at most 0 and the
receiver down to at least 0, and zeroes at least one of the two. -/
theorem step_facts {gv rv : ℚ} (hg : gv < 0) (hr : 0 < rv) :
    0 < min (|gv|) rv ∧ gv + min (|gv|) rv ≤ 0 ∧ 0 ≤ rv - min (|gv|) rv ∧
      (|gv + min (|gv|) rv| < eps ∨ rv - min (|gv|) rv < eps) := by
  have habs : |gv| = -gv := abs_of_neg hg
  rw [habs]
  refine ⟨lt_min (by linarith) hr, ?_, ?_, ?_⟩
  · have : min (-gv) rv ≤ -gv := min_le_left _ _
    linarith
  · have : min (-gv) rv ≤ rv := min_le_right _ _
    linarith
  · rcases min_cases (-gv) rv with ⟨h, _⟩ | ⟨h, _⟩
    · left
      rw [h]
      simpa using eps_pos
    · right
      rw [h]
      simpa using eps_pos

/-! ### Sorting: stable insertion sorts are permutations -/

theorem insertGiver_perm (x : Participant × ℚ) (l : List (Participant × ℚ)) :
    List.Perm (insertGiver x l) (x :: l) := by
  induction l with
  | nil => simp [insertGiver]
  | cons y ys ih =>
    rw [insertGiver]
    by_cases h : x.2 ≤ y.2
    · simp [h]
    · simp only [h, if_false]
      exact (ih.cons y).trans (List.Perm.swap x y ys)

theorem sortGivers_perm (l : List (Participant × ℚ)) :
    List.Perm (sortGivers l) l := by
  induction l with
  | nil => simp [sortGivers]
  | cons y ys ih =>
    have : sortGivers (y :: ys) = insertGiver y (sortGivers ys) := rfl
    rw [this]
    exact (insertGiver_perm y (sortGivers ys)).trans (ih.cons y)

theorem insertReceiver_perm (x : Participant × ℚ) (l : List (Participant × ℚ)) :
    List.Perm (insertReceiver x l) (x :: l) := by
  induction l with
  | nil => simp [insertReceiver]
  | cons y ys ih =>
    rw [insertReceiver]
    by_cases h : y.2 ≤ x.2
    · simp [h]
    · simp only [h, if_false]
      exact (ih.cons y).trans (List.Perm.swap x y ys)

theorem sortReceivers_perm (l : List (Participant × ℚ)) :
    List.Perm (sortReceivers l) l := by
  induction l with
  | nil => simp [sortReceivers]
  | cons y ys ih =>
    have : sortReceivers (y :: ys) = insertReceiver y (sortReceivers ys) := rfl
    rw [this]
    exact (insertReceiver_perm y (sortReceivers ys)).trans (ih.cons y)

theorem sortGivers_length (l : List (Participant × ℚ)) :
    (sortGivers l).length = l.length :=
  (sortGivers_perm l).length_eq

theorem sortReceivers_length (l : List (Participant × ℚ)) :
    (sortReceivers l).length = l.length :=
  (sortReceivers_perm l).length_eq

/-! ### Fuel sufficiency of the greedy loop (claim C9) -/

/-- With all givers negative and all receivers positive, any fuel at least
`gs.length + rs.length` gives the same result as one more unit of fuel:
the loop never exhausts that much fuel. -/
theorem matchLoop_fuel_succ :
    ∀ (f : ℕ) (gs rs : List (Participant × ℚ)),
      (∀ p ∈ gs, p.2 < 0) → (∀ p ∈ rs, 0 < p.2) →
      gs.length + rs.length ≤ f →
      matchLoop (f + 1) gs rs = matchLoop f gs rs := by
  intro f
  induction f with
  | zero =>
    intro gs rs _ _ hlen
    have hg : gs = [] := by
      cases gs with
      | nil => rfl
      | cons a l => simp at hlen
    subst hg
    rw [matchLoop_nil_left, matchLoop_nil_left]
  | succ f ih =>
    intro gs rs hg hr hlen
    rcases gs with _ | ⟨g, gs⟩
    · rw [matchLoop_nil_left, matchLoop_nil_left]
    rcases rs with _ | ⟨r, rs⟩
    · rw [matchLoop_nil_right, matchLoop_nil_right]
    rw [matchLoop_cons, matchLoop_cons]
    have hgh : g.2 < 0 := hg g (List.mem_cons_self g gs)
    have hrh : 0 < r.2 := hr r (List.mem_cons_self r rs)
    obtain ⟨hs_pos, hg2, hr2, hdrop⟩ := step_facts hgh hrh
    congr 1
    set s := min (|g.2|) r.2 with hs
    set gs2 := if |g.2 + s| < eps then gs else (g.1, g.2 + s) :: gs with hgs2
    set rs2 := if r.2 - s < eps then rs else (r.1, r.2 - s) :: rs with hrs2
    have hg' : ∀ p ∈ gs2, p.2 < 0 := by
      intro p hp
      rw [hgs2] at hp
      by_cases hc : |g.2 + s| < eps
      · rw [if_pos hc] at hp
        exact hg p (List.mem_cons_of_mem g hp)
      · rw [if_neg hc] at hp
        rcases List.mem_cons.mp hp with h | h
        · push_neg at hc
          have : |g.2 + s| = -(g.2 + s) := abs_of_nonpos hg2
          rw [this] at hc
          rw [h]
        
          have := eps_pos
          simp only []
          nlinarith [hc]
        · exact hg p (List.mem_cons_of_mem g h)
    have hr' : ∀ p ∈ rs2, 0 < p.2 := by
      intro p hp
      rw [hrs2] at hp
      by_cases hc : r.2 - s < eps
      · rw [if_pos hc] at hp
        exact hr p (List.mem_cons_of_mem r hp)
      · rw [if_neg hc] at hp
        rcases List.mem_cons.mp hp with h | h
        · push_neg at hc
          rw [h]
          have := eps_pos
          simp only []
          nlinarith [hc]
        · exact hr p (List.mem_cons_of_mem r h)
    have hlen' : gs2.length + rs2.length ≤ f := by
      have h1 : gs2.length ≤ gs.length + 1 := by
        rw [hgs2]
        by_cases hc : |g.2 + s| < eps <;> simp [hc]
      have h2 : rs2.length ≤ rs.length + 1 := by
        rw [hrs2]
        by_cases hc : r.2 - s < eps <;> simp [hc]
      have hone : gs2.length = gs.length ∨ rs2.length = rs.length := by
        rcases hdrop with h | h
        · left
          rw [hgs2, if_pos h]
        · right
          rw [hrs2, if_pos h]
      simp only [List.length_cons] at hlen
      rcases hone with h | h <;> omega
    exact ih gs2 rs2 hg' hr' hlen'

/-- Fuel monotonicity: any fuel at least `gs.length + rs.length` gives the
same edges. -/
theorem matchLoop_fuel_ge (f₀ f : ℕ) (gs rs : List (Participant × ℚ))
    (hg : ∀ p ∈ gs, p.2 < 0) (hr : ∀ p ∈ rs, 0 < p.2)
    (hlen : gs.length + rs.length ≤ f₀) (hf : f₀ ≤ f) :
    matchLoop f gs rs = matchLoop f₀ gs rs := by
  induction f, hf using Nat.le_induction with
  | base => rfl
  | succ n hn ih =>
    rw [← ih]
    exact matchLoop_fuel_succ n gs rs hg hr (le_trans hlen hn)

/-! ### Edge-count bound of the greedy loop (claim C7) -/

/-- With both sides non-empty, the loop emits at most
`gs.length + rs.length - 1` edges: each iteration emits at most one edge
and retires at least one participant, and the loop stops as soon as one
side is exhausted. -/
theorem matchLoop_length_bound :
    ∀ (f : ℕ) (gs rs : List (Participant × ℚ)),
      (∀ p ∈ gs, p.2 < 0) → (∀ p ∈ rs, 0 < p.2) →
      gs ≠ [] → rs ≠ [] →
      (matchLoop f gs rs).length + 1 ≤ gs.length + rs.length := by
  intro f
  induction f with
  | zero =>
    intro gs rs _ _ hgne hrne
    have h1 : 1 ≤ gs.length := List.length_pos.mpr hgne
    have h2 : 1 ≤ rs.length := List.length_pos.mpr hrne
    rw [matchLoop]
    simp only [List.length_nil]
    omega
  | succ f ih =>
    intro gs rs hg hr hgne hrne
    rcases gs with _ | ⟨g, gs⟩
    · exact absurd rfl hgne
    rcases rs with _ | ⟨r, rs⟩
    · exact absurd rfl hrne
    rw [matchLoop_cons]
    have hgh : g.2 < 0 := hg g (List.mem_cons_self g gs)
    have hrh : 0 < r.2 := hr r (List.mem_cons_self r rs)
    obtain ⟨hs_pos, hg2, hr2, hdrop⟩ := step_facts hgh hrh
    set s := min (|g.2|) r.2 with hs
    set gs2 := if |g.2 + s| < eps then gs else (g.1, g.2 + s) :: gs with hgs2
    set rs2 := if r.2 - s < eps then rs else (r.1, r.2 - s) :: rs with hrs2
    have hemit : (if s > eps then
        ([⟨g.1, r.1, round2 s⟩] : List SettlementEdge) else []).length ≤ 1 := by
      by_cases hc : s > eps <;> simp [hc]
    have hlen2 : gs2.length + rs2.length ≤ gs.length + rs.length + 1 := by
      have h1 : gs2.length ≤ gs.length + 1 := by
        rw [hgs2]
        by_cases hc : |g.2 + s| < eps <;> simp [hc]
      have h2 : rs2.length ≤ rs.length + 1 := by
        rw [hrs2]
        by_cases hc : r.2 - s < eps <;> simp [hc]
      have hone : gs2.length = gs.length ∨ rs2.length = rs.length := by
        rcases hdrop with h | h
        · left
          rw [hgs2, if_pos h]
        · right
          rw [hrs2, if_pos h]
      rcases hone with h | h <;> omega
    by_cases hgs2e : gs2 = []
    · rw [hgs2e, matchLoop_nil_left]
      simp only [List.length_append, List.length_nil, List.length_cons]
      omega
    by_cases hrs2e : rs2 = []
    · rw [hrs2e, matchLoop_nil_right]
      simp only [List.length_append, List.length_nil, List.length_cons]
      omega
    have hg' : ∀ p ∈ gs2, p.2 < 0 := by
      intro p hp
      rw [hgs2] at hp
      by_cases hc : |g.2 + s| < eps
      · rw [if_pos hc] at hp
        exact hg p (List.mem_cons_of_mem g hp)
      · rw [if_neg hc] at hp
        rcases List.mem_cons.mp hp with h | h
        · push_neg at hc
          have habs : |g.2 + s| = -(g.2 + s) := abs_of_nonpos hg2
          rw [habs] at hc
          rw [h]
          have := eps_pos
          simp only []
          nlinarith [hc]
        · exact hg p (List.mem_cons_of_mem g h)
    have hr' : ∀ p ∈ rs2, 0 < p.2 := by
      intro p hp
      rw [hrs2] at hp
      by_cases hc : r.2 - s < eps
      · rw [if_pos hc] at hp
        exact hr p (List.mem_cons_of_mem r hp)
      · rw [if_neg hc] at hp
        rcases List.mem_cons.mp hp with h | h
        · push_neg at hc
          rw [h]
          have := eps_pos
          simp only []
          nlinarith [hc]
        · exact hr p (List.mem_cons_of_mem r h)
    have := ih gs2 rs2 hg' hr' hgs2e hrs2e
    simp only [List.length_append, List.length_cons]
    omega

/-! ### No self-edges in the greedy loop (claim C8) -/

/-- As long as no giver key coincides with a receiver key, every edge the
loop emits goes between two distinct participants. -/
theorem matchLoop_no_self :
    ∀ (f : ℕ) (gs rs : List (Participant × ℚ)),
      (∀ a ∈ gs, ∀ b ∈ rs, a.1 ≠ b.1) →
      ∀ e ∈ matchLoop f gs rs, e.from_ ≠ e.to_ := by
  intro f
  induction f with
  | zero =>
    intro gs rs _ e he
    rw [matchLoop] at he
    simp at he
  | succ f ih =>
    intro gs rs hdisj e he
    rcases gs with _ | ⟨g, gs⟩
    · rw [matchLoop_nil_left] at he
      simp at he
    rcases rs with _ | ⟨r, rs⟩
    · rw [matchLoop_nil_right] at he
      simp at he
    rw [matchLoop_cons] at he
    set s := min (|g.2|) r.2 with hs
    rcases List.mem_append.mp he with h | h
    · have : e = ⟨g.1, r.1, round2 s⟩ := by
        by_cases hc : s > eps
        · rw [if_pos hc] at h
          simpa using h
        · rw [if_neg hc] at h
          simp at h
      rw [this]
      exact hdisj g (List.mem_cons_self g gs) r (List.mem_cons_self r rs)
    · set gs2 := if |g.2 + s| < eps then gs else (g.1, g.2 + s) :: gs with hgs2
      set rs2 := if r.2 - s < eps then rs else (r.1, r.2 - s) :: rs with hrs2
      have hdisj' : ∀ a ∈ gs2, ∀ b ∈ rs2, a.1 ≠ b.1 := by
        intro a ha b hb
        have haorig : a.1 = g.1 ∨ a ∈ gs := by
          rw [hgs2] at ha
          by_cases hc : |g.2 + s| < eps
          · rw [if_pos hc] at ha
            right
            exact ha
          · rw [if_neg hc] at ha
            rcases List.mem_cons.mp ha with h' | h'
            · left
              rw [h']
            · right
              exact h'
        have hborig : b.1 = r.1 ∨ b ∈ rs := by
          rw [hrs2] at hb
          by_cases hc : r.2 - s < eps
          · rw [if_pos hc] at hb
            right
            exact hb
          · rw [if_neg hc] at hb
            rcases List.mem_cons.mp hb with h' | h'
            · left
              rw [h']
            · right
              exact h'
        rcases haorig with ha' | ha' <;> rcases hborig with hb' | hb'
        · rw [ha', hb']
          exact hdisj g (List.mem_cons_self g gs) r (List.mem_cons_self r rs)
        · rw [ha']
          exact hdisj g (List.mem_cons_self g gs) b (List.mem_cons_of_mem r hb')
        · rw [hb']
          exact hdisj a (List.mem_cons_of_mem g ha') r (List.mem_cons_self r rs)
        · exact hdisj a (List.mem_cons_of_mem g ha') b (List.mem_cons_of_mem r hb')
      exact ih gs2 rs2 hdisj' e h

/-! ### Claim C3: the strict-advance spec loop is the code's loop -/

theorem specMatchStrict_cons (f : ℕ) (g r : Participant × ℚ)
    (gs rs : List (Participant × ℚ)) :
    specMatchStrict (f + 1) (g :: gs) (r :: rs) =
      (if min (|g.2|) r.2 > eps then
          [⟨g.1, r.1, round2 (min (|g.2|) r.2)⟩] else []) ++
        specMatchStrict f
          (if |g.2 + min (|g.2|) r.2| < eps then gs
            else (g.1, g.2 + min (|g.2|) r.2) :: gs)
          (if |r.2 - min (|g.2|) r.2| < eps then rs
            else (r.1, r.2 - min (|g.2|) r.2) :: rs) := rfl

/-- The receiver's adjusted amount can never go below zero, so the code's
advance test `receiver.amount < 0.01` coincides with the magnitude test
`|receiver.amount| < 0.01`, and the two loops agree on all inputs. -/
theorem specMatchStrict_eq_matchLoop :
    ∀ (f : ℕ) (gs rs : List (Participant × ℚ)),
      specMatchStrict f gs rs = matchLoop f gs rs := by
  intro f
  induction f with
  | zero =>
    intro gs rs
    rw [matchLoop, specMatchStrict]
  | succ f ih =>
    intro gs rs
    rcases gs with _ | ⟨g, gs⟩
    · rw [matchLoop_nil_left, specMatchStrict]
    rcases rs with _ | ⟨r, rs⟩
    · rw [matchLoop_nil_right, specMatchStrict]
    rw [matchLoop_cons, specMatchStrict_cons]
    have hr2 : 0 ≤ r.2 - min (|g.2|) r.2 := by
      have := min_le_right (|g.2|) r.2
      linarith
    rw [abs_of_nonneg hr2]
    rw [ih]

/-! ### Balance accumulator: keys, lookups and sums -/

theorem balKeys_updIfPresent (b : NetBalance) (k : Participant) (f : ℚ → ℚ) :
    balKeys (updIfPresent b k f) = balKeys b := by
  induction b with
  | nil => rfl
  | cons p b ih =>
    simp only [balKeys, updIfPresent, List.map_cons] at *
    by_cases h : p.1 = k
    · simp only [h, if_pos rfl]
      simpa [h] using ih
    · simp only [if_neg h]
      simpa using ih

theorem updIfPresent_notmem (b : NetBalance) (k : Participant) (f : ℚ → ℚ)
    (h : k ∉ balKeys b) : updIfPresent b k f = b := by
  induction b with
  | nil => rfl
  | cons p b ih =>
    simp only [balKeys, List.map_cons, List.mem_cons] at h
    push_neg at h
    simp only [updIfPresent, List.map_cons]
    rw [if_neg (fun hh => h.1 hh.symm)]
    have := ih (by simpa [balKeys] using h.2)
    simpa [updIfPresent] using this

theorem getBal_updIfPresent_mem (b : NetBalance) (k : Participant) (f : ℚ → ℚ)
    (h : k ∈ balKeys b) : getBal (updIfPresent b k f) k = f (getBal b k) := by
  induction b with
  | nil => simp [balKeys] at h
  | cons p b ih =>
    by_cases hp : p.1 = k
    · simp [updIfPresent, getBal, hp]
    · simp only [balKeys, List.map_cons, List.mem_cons] at h
      rcases h with h | h
      · exact absurd h.symm hp
      · simp only [updIfPresent, List.map_cons, if_neg hp, getBal, hp, if_false]
        exact ih (by simpa [balKeys] using h)

theorem getBal_updIfPresent_other (b : NetBalance) (k k' : Participant)
    (f : ℚ → ℚ) (h : k' ≠ k) : getBal (updIfPresent b k f) k' = getBal b k' := by
  induction b with
  | nil => rfl
  | cons p b ih =>
    rw [updIfPresent, List.map_cons]
    by_cases hp : p.1 = k
    · rw [if_pos hp]
      simp only [getBal]
      have h1 : ¬ (p.1 = k') := by
        rw [hp]
        exact fun hh => h hh.symm
      rw [if_neg h1, if_neg h1]
      exact ih
    · rw [if_neg hp]
      simp only [getBal]
      by_cases hk' : p.1 = k'
      · rw [if_pos hk', if_pos hk']
      · rw [if_neg hk', if_neg hk']
        exact ih

theorem getBal_zero (b : NetBalance) (k : Participant)
    (h : ∀ p ∈ b, p.2 = 0) : getBal b k = 0 := by
  induction b with
  | nil => rfl
  | cons p b ih =>
    rw [getBal]
    by_cases hp : p.1 = k
    · rw [if_pos hp]
      exact h p (List.mem_cons_self p b)
    · rw [if_neg hp]
      exact ih fun q hq => h q (List.mem_cons_of_mem p hq)

theorem sumBal_zero (b : NetBalance) (h : ∀ p ∈ b, p.2 = 0) : sumBal b = 0 := by
  induction b with
  | nil => rfl
  | cons p b ih =>
    simp only [sumBal, List.map_cons, List.sum_cons] at *
    rw [h p (List.mem_cons_self p b), ih fun q hq => h q (List.mem_cons_of_mem p hq)]
    ring

/-- Shifting one present key changes the sum by the shift (distinct keys). -/
theorem sumBal_updIfPresent_shift (b : NetBalance) (k : Participant) (a : ℚ)
    (hnd : (balKeys b).Nodup) :
    sumBal (updIfPresent b k (fun x => x + a)) =
      sumBal b + (if k ∈ balKeys b then a else 0) := by
  induction b with
  | nil => simp [updIfPresent, sumBal, balKeys]
  | cons p b ih =>
    simp only [balKeys, List.map_cons, List.nodup_cons] at hnd
    by_cases hp : p.1 = k
    · have hk : k ∉ balKeys b := by
        rw [← hp]
        exact fun hh => hnd.1 (by simpa [balKeys] using hh)
      rw [updIfPresent, List.map_cons, if_pos hp]
      have hrest : List.map (fun q => if q.1 = k then (q.1, q.2 + a) else q) b = b := by
        have := updIfPresent_notmem b k (fun x => x + a) hk
        simpa [updIfPresent] using this
      rw [hrest]
      simp only [sumBal, List.map_cons, List.sum_cons, balKeys, List.mem_cons, hp]
      simp
      ring
    · rw [updIfPresent, List.map_cons, if_neg hp]
      have ihh := ih hnd.2
      simp only [sumBal, List.map_cons, List.sum_cons, balKeys] at ihh ⊢
      rw [show List.map (fun q => if q.1 = k then (q.1, q.2 + a) else q) b =
          updIfPresent b k (fun x => x + a) from rfl, ihh]
      have : (k ∈ p.1 :: List.map Prod.fst b) ↔ (k ∈ List.map Prod.fst b) := by
        simp only [List.mem_cons]
        constructor
        · rintro (h | h)
          · exact absurd h.symm hp
          · exact h
        · exact fun h => Or.inr h
      by_cases hm : k ∈ List.map Prod.fst b
      · rw [if_pos hm, if_pos (this.mpr hm)]
        ring
      · rw [if_neg hm, if_neg (fun hh => hm (this.mp hh))]
        ring

/-- One invariant pass over the initial foldl of `calculateNetBalances`:
keys of the built map are the accumulator's keys plus the processed
members, keys stay distinct, and all values stay zero. -/
theorem initBalances_foldl_invariant :
    ∀ (ms : List Participant) (acc : NetBalance),
      (∀ k, k ∈ balKeys (ms.foldl
          (fun b m => if m ∈ b.map Prod.fst then b else b ++ [(m, 0)]) acc) ↔
        k ∈ balKeys acc ∨ k ∈ ms) ∧
      ((balKeys acc).Nodup → (balKeys (ms.foldl
          (fun b m => if m ∈ b.map Prod.fst then b else b ++ [(m, 0)]) acc)).Nodup) ∧
      ((∀ p ∈ acc, p.2 = 0) → ∀ p ∈ ms.foldl
          (fun b m => if m ∈ b.map Prod.fst then b else b ++ [(m, 0)]) acc, p.2 = 0) := by
  intro ms
  induction ms with
  | nil =>
    intro acc
    refine ⟨fun k => by simp, fun h => h, fun h => h⟩
  | cons m ms ih =>
    intro acc
    simp only [List.foldl_cons]
    by_cases hm : m ∈ acc.map Prod.fst
    · rw [if_pos hm]
      obtain ⟨h1, h2, h3⟩ := ih acc
      refine ⟨fun k => ?_, h2, h3⟩
      rw [h1 k]
      constructor
      · rintro (h | h)
        · exact Or.inl h
        · exact Or.inr (List.mem_cons_of_mem m h)
      · rintro (h | h)
        · exact Or.inl h
        · rcases List.mem_cons.mp h with h | h
          · subst h
            exact Or.inl hm
          · exact Or.inr h
    · rw [if_neg hm]
      obtain ⟨h1, h2, h3⟩ := ih (acc ++ [(m, 0)])
      have hkeys : balKeys (acc ++ [(m, 0)]) = balKeys acc ++ [m] := by
        simp [balKeys]
      refine ⟨fun k => ?_, fun hnd => ?_, fun hz => ?_⟩
      · rw [h1 k, hkeys]
        simp only [List.mem_append, List.mem_singleton, List.mem_cons]
        tauto
      · apply h2
        rw [hkeys]
        apply List.Nodup.append hnd (List.nodup_singleton m)
        intro a ha hb
        rw [List.mem_singleton] at hb
        subst hb
        exact hm (by simpa [balKeys] using ha)
      · apply h3
        intro p hp
        rcases List.mem_append.mp hp with h | h
        · exact hz p h
        · rw [List.mem_singleton] at h
          rw [h]

theorem balKeys_initBalances (ms : List Participant) (k : Participant) :
    k ∈ balKeys (initBalances ms) ↔ k ∈ ms := by
  have := (initBalances_foldl_invariant ms []).1 k
  rw [initBalances]
  rw [this]
  simp [balKeys]

theorem balKeys_initBalances_nodup (ms : List Participant) :
    (balKeys (initBalances ms)).Nodup := by
  have := (initBalances_foldl_invariant ms []).2.1
  rw [initBalances]
  exact this (by simp [balKeys])

theorem initBalances_zero (ms : List Participant) :
    ∀ p ∈ initBalances ms, p.2 = 0 := by
  have := (initBalances_foldl_invariant ms []).2.2
  rw [initBalances]
  exact this (by simp)

/-- Keys are unchanged by the debit fold of `applyExpense`. -/
theorem balKeys_debit_foldl (l : List Participant) (a : ℚ) :
    ∀ b : NetBalance,
      balKeys (l.foldl (fun acc i => updIfPresent acc i (fun x => x - a)) b) =
        balKeys b := by
  induction l with
  | nil => intro b; rfl
  | cons i l ih =>
    intro b
    rw [List.foldl_cons, ih, balKeys_updIfPresent]

theorem balKeys_applyExpense (ms : List Participant) (b : NetBalance) (e : Expense) :
    balKeys (applyExpense ms b e) = balKeys b := by
  rw [applyExpense]
  rw [balKeys_debit_foldl, balKeys_updIfPresent]

theorem balKeys_expense_foldl (ms : List Participant) :
    ∀ (es : List Expense) (b : NetBalance),
      balKeys (es.foldl (applyExpense ms) b) = balKeys b := by
  intro es
  induction es with
  | nil => intro b; rfl
  | cons e es ih =>
    intro b
    rw [List.foldl_cons, ih, balKeys_applyExpense]

theorem balKeys_calculateNetBalances (es : List Expense) (ms : List Participant) :
    balKeys (calculateNetBalances es ms) = balKeys (initBalances ms) := by
  rw [calculateNetBalances, balKeys_expense_foldl]

/-- The debit fold subtracts `a` once per involved id (with multiplicity),
provided every involved id has an entry. -/
theorem sumBal_debit_foldl (a : ℚ) :
    ∀ (l : List Participant) (b : NetBalance),
      (balKeys b).Nodup → (∀ i ∈ l, i ∈ balKeys b) →
      sumBal (l.foldl (fun acc i => updIfPresent acc i (fun x => x - a)) b) =
        sumBal b - l.length * a := by
  intro l
  induction l with
  | nil =>
    intro b _ _
    simp
  | cons i l ih =>
    intro b hnd hmem
    rw [List.foldl_cons]
    have hsub : (fun x => x - a) = (fun x => x + (-a)) := by
      funext x
      ring
    have hstep : sumBal (updIfPresent b i (fun x => x - a)) = sumBal b - a := by
      rw [hsub, sumBal_updIfPresent_shift b i (-a) hnd,
        if_pos (hmem i (List.mem_cons_self i l))]
      ring
    have hkeys : balKeys (updIfPresent b i (fun x => x - a)) = balKeys b :=
      balKeys_updIfPresent b i _
    rw [ih (updIfPresent b i (fun x => x - a)) (hkeys ▸ hnd)
      (fun j hj => hkeys ▸ hmem j (List.mem_cons_of_mem i hj)), hstep]
    simp only [List.length_cons]
    push_cast
    ring

/-- Processing one expense whose payer and involved ids all have entries
leaves the total balance unchanged: the payer's credit equals the sum of
the debited shares. -/
theorem sumBal_applyExpense (ms : List Participant) (b : NetBalance) (e : Expense)
    (hnd : (balKeys b).Nodup) (hp : e.paidBy ∈ balKeys b)
    (hi : ∀ i ∈ involvedOf ms e, i ∈ balKeys b)
    (hne : involvedOf ms e ≠ []) :
    sumBal (applyExpense ms b e) = sumBal b := by
  rw [applyExpense]
  have hkeyscred : balKeys (updIfPresent b e.paidBy (fun x => x + e.amount)) =
      balKeys b := balKeys_updIfPresent b _ _
  have hcred : sumBal (updIfPresent b e.paidBy (fun x => x + e.amount)) =
      sumBal b + e.amount := by
    rw [sumBal_updIfPresent_shift b e.paidBy e.amount hnd, if_pos hp]
  rw [sumBal_debit_foldl _ (involvedOf ms e) _ (hkeyscred ▸ hnd)
    (fun j hj => hkeyscred ▸ hi j hj), hcred]
  have hn : ((involvedOf ms e).length : ℚ) ≠ 0 := by
    have : (involvedOf ms e).length ≠ 0 := by
      intro h
      exact hne (List.length_eq_zero.mp h)
    exact_mod_cast this
  field_simp

/-- Folding any list of roster-internal expenses preserves the total. -/
theorem sumBal_expense_foldl (ms : List Participant) :
    ∀ (es : List Expense) (b : NetBalance),
      balKeys b = balKeys (initBalances ms) →
      (∀ e ∈ es, e.paidBy ∈ ms ∧ ∀ i ∈ e.splitBetween, i ∈ ms) →
      sumBal (es.foldl (applyExpense ms) b) = sumBal b := by
  intro es
  induction es with
  | nil =>
    intro b _ _
    rfl
  | cons e es ih =>
    intro b hkeys hes
    obtain ⟨hpay, hben⟩ := hes e (List.mem_cons_self e es)
    have hnd : (balKeys b).Nodup := by
      rw [hkeys]
      exact balKeys_initBalances_nodup ms
    have hmem : ∀ i, i ∈ ms → i ∈ balKeys b := by
      intro i hi
      rw [hkeys]
      exact (balKeys_initBalances ms i).mpr hi
    have hp : e.paidBy ∈ balKeys b := hmem _ hpay
    have hi : ∀ i ∈ involvedOf ms e, i ∈ balKeys b := by
      intro i hiv
      rw [involvedOf] at hiv
      by_cases hsb : e.splitBetween.length > 0
      · rw [if_pos hsb] at hiv
        exact hmem i (hben i hiv)
      · rw [if_neg hsb] at hiv
        exact hmem i hiv
    have hne : involvedOf ms e ≠ [] := by
      rw [involvedOf]
      by_cases hsb : e.splitBetween.length > 0
      · rw [if_pos hsb]
        intro h
        rw [h] at hsb
        simp at hsb
      · rw [if_neg hsb]
        intro h
        rw [h] at hpay
        simp at hpay
    rw [List.foldl_cons,
      ih (applyExpense ms b e) (by rw [balKeys_applyExpense, hkeys]) 
        (fun e' he' => hes e' (List.mem_cons_of_mem e he')),
      sumBal_applyExpense ms b e hnd hp hi hne]

/-- Balance conservation for roster-internal transactions: the entries of
`calculateNetBalances` sum to exactly zero. -/
theorem sumBal_calculateNetBalances (es : List Expense) (ms : List Participant)
    (hes : ∀ e ∈ es, e.paidBy ∈ ms ∧ ∀ i ∈ e.splitBetween, i ∈ ms) :
    sumBal (calculateNetBalances es ms) = 0 := by
  rw [calculateNetBalances, sumBal_expense_foldl ms es (initBalances ms) rfl hes]
  exact sumBal_zero _ (initBalances_zero ms)

/-- Effect of the debit fold on one key: the share is subtracted once per
occurrence of the key among the involved ids. -/
theorem getBal_debit_foldl (a : ℚ) :
    ∀ (l : List Participant) (b : NetBalance) (k : Participant),
      getBal (l.foldl (fun acc i => updIfPresent acc i (fun x => x - a)) b) k =
        getBal b k - (if k ∈ balKeys b then (l.count k : ℚ) * a else 0) := by
  intro l
  induction l with
  | nil =>
    intro b k
    by_cases h : k ∈ balKeys b <;> simp [h]
  | cons i l ih =>
    intro b k
    rw [List.foldl_cons, ih]
    have hkeys : balKeys (updIfPresent b i (fun x => x - a)) = balKeys b :=
      balKeys_updIfPresent b i _
    rw [hkeys]
    by_cases hm : k ∈ balKeys b
    · rw [if_pos hm, if_pos hm]
      by_cases hik : k = i
      · subst hik
        rw [getBal_updIfPresent_mem b k _ hm]
        simp only [List.count_cons, beq_iff_eq, if_pos rfl]
        push_cast
        ring
      · rw [getBal_updIfPresent_other b i k _ hik]
        simp only [List.count_cons, beq_iff_eq,
          if_neg (fun h => hik h.symm : ¬ i = k)]
        push_cast
        ring
    · rw [if_neg hm, if_neg hm]
      by_cases hik : k = i
      · subst hik
        rw [updIfPresent_notmem b k _ hm]
      · rw [getBal_updIfPresent_other b i k _ hik]

/-- The net effect of a single expense on one roster member's balance:
`+amount` when they are the payer, minus the share once per occurrence
among the involved ids. -/
theorem getBal_single_expense (ms : List Participant) (e : Expense)
    (k : Participant) (hk : k ∈ ms) :
    getBal (calculateNetBalances [e] ms) k =
      (if k = e.paidBy then e.amount else 0) -
        ((involvedOf ms e).count k : ℚ) *
          (e.amount / ((involvedOf ms e).length : ℚ)) := by
  have hstep : calculateNetBalances [e] ms =
      applyExpense ms (initBalances ms) e := rfl
  rw [hstep, applyExpense]
  have hkinit : k ∈ balKeys (initBalances ms) :=
    (balKeys_initBalances ms k).mpr hk
  have hzero : getBal (initBalances ms) k = 0 :=
    getBal_zero _ k (initBalances_zero ms)
  have hkeyscred :
      balKeys (updIfPresent (initBalances ms) e.paidBy (fun x => x + e.amount)) =
        balKeys (initBalances ms) := balKeys_updIfPresent _ _ _
  have hcred :
      getBal (updIfPresent (initBalances ms) e.paidBy (fun x => x + e.amount)) k =
        (if k = e.paidBy then e.amount else 0) := by
    by_cases hpk : k = e.paidBy
    · rw [hpk] at hkinit hzero ⊢
      rw [getBal_updIfPresent_mem _ e.paidBy _ hkinit, hzero, if_pos rfl]
      ring
    · rw [getBal_updIfPresent_other _ e.paidBy k _ hpk, hzero, if_neg hpk]
  rw [getBal_debit_foldl, hcred, hkeyscred, if_pos hkinit]

/-! ### Plumbing between the partition, the sorts and the loop -/

theorem mem_sortGivers_of_giversOf {nb : NetBalance} {p : Participant × ℚ}
    (hp : p ∈ sortGivers (giversOf nb)) : p ∈ nb ∧ p.2 < -eps := by
  have hmem : p ∈ giversOf nb := (sortGivers_perm _).mem_iff.mp hp
  rw [giversOf] at hmem
  have := List.mem_filter.mp hmem
  refine ⟨this.1, ?_⟩
  have hd := this.2
  simpa using hd

theorem mem_sortReceivers_of_receiversOf {nb : NetBalance} {p : Participant × ℚ}
    (hp : p ∈ sortReceivers (receiversOf nb)) : p ∈ nb ∧ eps < p.2 := by
  have hmem : p ∈ receiversOf nb := (sortReceivers_perm _).mem_iff.mp hp
  rw [receiversOf] at hmem
  have := List.mem_filter.mp hmem
  refine ⟨this.1, ?_⟩
  have hd := this.2
  simpa using hd

/-- In a map with distinct keys, entries are determined by their key. -/
theorem nodup_key_eq :
    ∀ (nb : NetBalance), (balKeys nb).Nodup →
      ∀ a ∈ nb, ∀ b ∈ nb, a.1 = b.1 → a = b := by
  intro nb
  induction nb with
  | nil =>
    intro _ a ha
    simp at ha
  | cons p l ih =>
    intro hnd a ha b hb hab
    simp only [balKeys, List.map_cons, List.nodup_cons] at hnd
    rcases List.mem_cons.mp ha with ha' | ha' <;>
      rcases List.mem_cons.mp hb with hb' | hb'
    · rw [ha', hb']
    · exfalso
      apply hnd.1
      rw [← ha', hab]
      exact List.mem_map_of_mem Prod.fst hb'
    · exfalso
      apply hnd.1
      rw [← hb', ← hab]
      exact List.mem_map_of_mem Prod.fst ha'
    · exact ih hnd.2 a ha' b hb' hab

/-- With distinct keys, no participant is both a giver and a receiver. -/
theorem givers_receivers_disjoint {nb : NetBalance}
    (hnd : (balKeys nb).Nodup) :
    ∀ a ∈ sortGivers (giversOf nb), ∀ b ∈ sortReceivers (receiversOf nb),
      a.1 ≠ b.1 := by
  intro a ha b hb hab
  obtain ⟨hanb, haneg⟩ := mem_sortGivers_of_giversOf ha
  obtain ⟨hbnb, hbpos⟩ := mem_sortReceivers_of_receiversOf hb
  have : a = b := nodup_key_eq nb hnd a hanb b hbnb hab
  rw [this] at haneg
  have := eps_pos
  linarith

theorem simplifyDebts_def (nb : NetBalance) :
    simplifyDebts nb =
      matchLoop
        ((sortGivers (giversOf nb)).length + (sortReceivers (receiversOf nb)).length)
        (sortGivers (giversOf nb)) (sortReceivers (receiversOf nb)) := rfl

theorem sortGivers_giversOf_neg {nb : NetBalance} :
    ∀ p ∈ sortGivers (giversOf nb), p.2 < 0 := by
  intro p hp
  have := (mem_sortGivers_of_giversOf hp).2
  have := eps_pos
  linarith

theorem sortReceivers_receiversOf_pos {nb : NetBalance} :
    ∀ p ∈ sortReceivers (receiversOf nb), 0 < p.2 := by
  intro p hp
  have := (mem_sortReceivers_of_receiversOf hp).2
  have := eps_pos
  linarith

/-! ### Claim theorems -/

/-- C2 (counterexample): balance conservation fails for arbitrary inputs.
With roster `{A}` and the single transaction `{amount: 100, payer: B,
beneficiaries: {A}}`, the off-roster payer's credit is silently dropped
while A is debited, so the balances sum to −100, far beyond ε. -/
theorem C2_balance_conservation_counterexample :
    ¬ (|sumBal (calculateNetBalances [⟨100, "B", ["A"]⟩] ["A"])| ≤ eps) := by
  norm_num +decide [calculateNetBalances, initBalances, applyExpense, involvedOf,
    updIfPresent, sumBal, eps, List.filter, abs_of_nonpos]

/-- C2 (amended): for every list of transactions whose payer and
beneficiaries all belong to the roster, the entries of
`calculateNetBalances` sum to exactly zero — in particular within ε of
zero — because each transaction's credited amount equals the total of the
debited shares. -/
theorem C2_balance_conservation_amended (es : List Expense) (ms : List Participant)
    (hes : ∀ e ∈ es, e.paidBy ∈ ms ∧ ∀ i ∈ e.splitBetween, i ∈ ms) :
    sumBal (calculateNetBalances es ms) = 0 ∧
      |sumBal (calculateNetBalances es ms)| ≤ eps := by
  have h := sumBal_calculateNetBalances es ms hes
  refine ⟨h, ?_⟩
  rw [h]
  simp only [abs_zero]
  exact le_of_lt eps_pos

theorem C2_balance_conservation_amended_witness :
    (∀ e ∈ [Expense.mk 100 "A" ["A", "B"]],
        e.paidBy ∈ ["A", "B"] ∧ ∀ i ∈ e.splitBetween, i ∈ ["A", "B"]) ∧
      sumBal (calculateNetBalances [Expense.mk 100 "A" ["A", "B"]] ["A", "B"]) = 0 ∧
        |sumBal (calculateNetBalances [Expense.mk 100 "A" ["A", "B"]] ["A", "B"])| ≤ eps :=
  ⟨by decide,
    C2_balance_conservation_amended [Expense.mk 100 "A" ["A", "B"]] ["A", "B"] (by decide)⟩

/-- C4: per-transaction accumulation.  For a roster member `k` (distinct
roster entries, beneficiary set without duplicates), a single transaction
credits the payer with the full amount and debits each involved
participant by `amount / |involved|`, where the involved set is the
beneficiaries when non-empty and the roster otherwise; a payer who is also
a beneficiary nets `amount` minus their own share.  In particular, for
roster `{A,B}` and `{amount: 100, payer: A, beneficiaries: {A,B}}` the
result is `{A: +50, B: −50}`. -/
theorem C4_per_transaction_effect (ms : List Participant) (e : Expense)
    (k : Participant) (hms : ms.Nodup) (hsb : e.splitBetween.Nodup) (hk : k ∈ ms) :
    (getBal (calculateNetBalances [e] ms) k =
        (if k = e.paidBy then e.amount else 0) -
          (if k ∈ involvedOf ms e then
            e.amount / ((involvedOf ms e).length : ℚ) else 0)) ∧
      calculateNetBalances [⟨100, "A", ["A", "B"]⟩] ["A", "B"] =
        [("A", 50), ("B", -50)] := by
  constructor
  · rw [getBal_single_expense ms e k hk]
    have hinv : (involvedOf ms e).Nodup := by
      rw [involvedOf]
      by_cases h : e.splitBetween.length > 0
      · rw [if_pos h]
        exact hsb
      · rw [if_neg h]
        exact hms
    by_cases hkin : k ∈ involvedOf ms e
    · rw [if_pos hkin, List.count_eq_one_of_mem hinv hkin]
      push_cast
      ring
    · rw [if_neg hkin, List.count_eq_zero_of_not_mem hkin]
      push_cast
      ring
  · norm_num +decide [calculateNetBalances, initBalances, applyExpense,
      involvedOf, updIfPresent]

theorem C4_per_transaction_effect_witness :
    (["A", "B"] : List Participant).Nodup ∧
      (Expense.mk 100 "A" ["A", "B"]).splitBetween.Nodup ∧
      "A" ∈ (["A", "B"] : List Participant) ∧
      ((getBal (calculateNetBalances [Expense.mk 100 "A" ["A", "B"]] ["A", "B"]) "A" =
          (if "A" = (Expense.mk 100 "A" ["A", "B"]).paidBy then
            (Expense.mk 100 "A" ["A", "B"]).amount else 0) -
            (if "A" ∈ involvedOf ["A", "B"] (Expense.mk 100 "A" ["A", "B"]) then
              (Expense.mk 100 "A" ["A", "B"]).amount /
                ((involvedOf ["A", "B"] (Expense.mk 100 "A" ["A", "B"])).length : ℚ)
            else 0)) ∧
        calculateNetBalances [⟨100, "A", ["A", "B"]⟩] ["A", "B"] =
          [("A", 50), ("B", -50)]) :=
  ⟨by decide, by decide, by decide,
    C4_per_transaction_effect ["A", "B"] (Expense.mk 100 "A" ["A", "B"]) "A"
      (by decide) (by decide) (by decide)⟩

/-- C5 (code behaviour at the failing inputs): the engine performs no
input validation.  On a non-positive amount it returns a computed balance
map (here `{A: −50, B: +50}` for amount −100), on an empty roster it
returns the empty map, and `simplifyDebts` on balances that do not sum
near zero returns a plan (here the empty plan, silently leaving `A`
unsettled) — in each case the call is accepted, not rejected. -/
theorem C5_invalid_input_not_rejected :
    calculateNetBalances [⟨-100, "A", []⟩] ["A", "B"] = [("A", -50), ("B", 50)] ∧
      calculateNetBalances [⟨100, "A", []⟩] [] = [] ∧
      simplifyDebts [("A", 5)] = [] := by
  refine ⟨?_, ?_, ?_⟩
  · norm_num +decide [calculateNetBalances, initBalances, applyExpense,
      involvedOf, updIfPresent]
  · norm_num +decide [calculateNetBalances, initBalances, applyExpense,
      involvedOf, updIfPresent]
  · norm_num +decide [simplifyDebts, giversOf, receiversOf, sortGivers,
      sortReceivers, insertGiver, insertReceiver, List.filter, matchLoop, eps]

/-- C6: `simplifyDebts` is deterministic: two invocations on the same
entry list (same entries in the same order) return identical edge lists.
(The embedding is a pure function of the entry list; the source loop
mutates only the freshly-allocated `{member, amount}` copies it pushes
into `givers`/`receivers`, never `netBalances` itself.) -/
theorem C6_simplify_deterministic (nb₁ nb₂ : NetBalance) (h : nb₁ = nb₂) :
    simplifyDebts nb₁ = simplifyDebts nb₂ :=
  congrArg simplifyDebts h

theorem C6_simplify_deterministic_witness :
    ([("A", -5), ("B", 5)] : NetBalance) = [("A", -5), ("B", 5)] ∧
      simplifyDebts [("A", -5), ("B", 5)] = simplifyDebts [("A", -5), ("B", 5)] :=
  ⟨rfl, C6_simplify_deterministic [("A", -5), ("B", 5)] [("A", -5), ("B", 5)] rfl⟩

/-- C7 (counterexample): the stated bound fails on the empty balance map,
where no edges are emitted but `debtors + creditors − 1 = −1 < 0`. -/
theorem C7_edge_count_counterexample :
    ¬ (((simplifyDebts []).length : ℤ) ≤
        ((giversOf []).length : ℤ) + ((receiversOf []).length : ℤ) - 1) := by
  norm_num +decide [simplifyDebts, giversOf, receiversOf, sortGivers,
    sortReceivers, matchLoop, List.filter]

/-- C7 (amended): whenever the ±ε partition yields at least one debtor or
creditor, the loop emits at most `debtors + creditors − 1` edges. -/
theorem C7_edge_count_amended (nb : NetBalance)
    (h : 1 ≤ (giversOf nb).length + (receiversOf nb).length) :
    ((simplifyDebts nb).length : ℤ) ≤
      ((giversOf nb).length : ℤ) + ((receiversOf nb).length : ℤ) - 1 := by
  rw [simplifyDebts_def]
  have hgl : (sortGivers (giversOf nb)).length = (giversOf nb).length :=
    sortGivers_length _
  have hrl : (sortReceivers (receiversOf nb)).length = (receiversOf nb).length :=
    sortReceivers_length _
  by_cases hge : sortGivers (giversOf nb) = []
  · rw [hge, matchLoop_nil_left]
    have : (giversOf nb).length = 0 := by
      rw [← hgl, hge]
      rfl
    simp only [List.length_nil]
    omega
  by_cases hre : sortReceivers (receiversOf nb) = []
  · rw [hre, matchLoop_nil_right]
    have : (receiversOf nb).length = 0 := by
      rw [← hrl, hre]
      rfl
    simp only [List.length_nil]
    omega
  have hbound := matchLoop_length_bound
    ((sortGivers (giversOf nb)).length + (sortReceivers (receiversOf nb)).length)
    (sortGivers (giversOf nb)) (sortReceivers (receiversOf nb))
    sortGivers_giversOf_neg sortReceivers_receiversOf_pos hge hre
  rw [← hgl, ← hrl]
  omega

theorem C7_edge_count_amended_witness :
    1 ≤ (giversOf [("A", -5), ("B", 5)]).length +
        (receiversOf [("A", -5), ("B", 5)]).length ∧
      ((simplifyDebts [("A", -5), ("B", 5)]).length : ℤ) ≤
        ((giversOf [("A", -5), ("B", 5)]).length : ℤ) +
          ((receiversOf [("A", -5), ("B", 5)]).length : ℤ) - 1 :=
  ⟨by norm_num +decide [giversOf, receiversOf, List.filter, eps],
    C7_edge_count_amended [("A", -5), ("B", 5)]
      (by norm_num +decide [giversOf, receiversOf, List.filter, eps])⟩

/-- C8: when the balance map has distinct keys (as a JS object always
does), no emitted edge is a self-edge: each key lands in at most one of
the debtor/creditor sides, and every edge joins the two heads. -/
theorem C8_no_self_edges (nb : NetBalance) (hnd : (balKeys nb).Nodup) :
    ∀ e ∈ simplifyDebts nb, e.from_ ≠ e.to_ := by
  rw [simplifyDebts_def]
  exact matchLoop_no_self _ _ _ (givers_receivers_disjoint hnd)

theorem C8_no_self_edges_witness :
    (balKeys [("A", -5), ("B", 5)]).Nodup ∧
      ∀ e ∈ simplifyDebts [("A", -5), ("B", 5)], e.from_ ≠ e.to_ :=
  ⟨by decide, C8_no_self_edges [("A", -5), ("B", 5)] (by decide)⟩

/-- C9: termination of the greedy loop.  Each iteration settles the
smaller of the two active magnitudes, driving one side's balance to zero,
so at least one index advances per iteration and
`givers.length + receivers.length` iterations of fuel are never exhausted:
any fuel at least that bound produces `simplifyDebts`' result. -/
theorem C9_loop_terminates (nb : NetBalance) (f : ℕ)
    (hf : (sortGivers (giversOf nb)).length +
      (sortReceivers (receiversOf nb)).length ≤ f) :
    matchLoop f (sortGivers (giversOf nb)) (sortReceivers (receiversOf nb)) =
      simplifyDebts nb := by
  rw [simplifyDebts_def]
  exact matchLoop_fuel_ge _ f _ _ sortGivers_giversOf_neg
    sortReceivers_receiversOf_pos le_rfl hf

theorem C9_loop_terminates_witness :
    (sortGivers (giversOf [("A", -5), ("B", 5)])).length +
        (sortReceivers (receiversOf [("A", -5), ("B", 5)])).length ≤ 7 ∧
      matchLoop 7 (sortGivers (giversOf [("A", -5), ("B", 5)]))
          (sortReceivers (receiversOf [("A", -5), ("B", 5)])) =
        simplifyDebts [("A", -5), ("B", 5)] :=
  ⟨by norm_num +decide [giversOf, receiversOf, List.filter, eps, sortGivers,
      sortReceivers, insertGiver, insertReceiver],
    C9_loop_terminates [("A", -5), ("B", 5)] 7
      (by norm_num +decide [giversOf, receiversOf, List.filter, eps, sortGivers,
        sortReceivers, insertGiver, insertReceiver])⟩

/-- C10: the key set of `calculateNetBalances` is exactly the roster, for
every input: the result's keys are distinct, a key is present iff it is a
roster member, and an off-roster payer or beneficiary is never added — so
their contribution is silently dropped and the returned balances can sum
to a nonzero value, as with roster `{A}` and payer `B`, where the sum
is −100. -/
theorem C10_keys_are_roster (es : List Expense) (ms : List Participant) :
    (balKeys (calculateNetBalances es ms)).Nodup ∧
      (∀ k, k ∈ balKeys (calculateNetBalances es ms) ↔ k ∈ ms) ∧
      sumBal (calculateNetBalances [⟨100, "B", ["A"]⟩] ["A"]) = -100 := by
  refine ⟨?_, fun k => ?_, ?_⟩
  · rw [balKeys_calculateNetBalances]
    exact balKeys_initBalances_nodup ms
  · rw [balKeys_calculateNetBalances]
    exact balKeys_initBalances ms k
  · norm_num +decide [calculateNetBalances, initBalances, applyExpense,
      involvedOf, updIfPresent, sumBal]

/-- C3 (counterexample): the claim's loop, with its advance rule
"advancing past any participant whose balance comes within ε of zero"
read inclusively (as the claim's own partition clause fixes the meaning of
"within ε of zero"), differs from the code.  After G1 (−5.01) pays R1
(5.00), G1's balance is exactly −0.01: the claim advances past G1, the
code keeps it and lets it silently settle 0.01 against R2, so later edge
amounts differ (1.99/1.01 versus 2.00/1.00). -/
theorem C3_algorithm_description_counterexample :
    specSimplifyWithin
        [("G1", -(501 : ℚ)/100), ("R1", 5), ("R2", 2), ("G2", -3), ("R3", (101 : ℚ)/100)] ≠
      simplifyDebts
        [("G1", -(501 : ℚ)/100), ("R1", 5), ("R2", 2), ("G2", -3), ("R3", (101 : ℚ)/100)] := by
  norm_num +decide [specSimplifyWithin, simplifyDebts, giversOf, receiversOf,
    sortGivers, sortReceivers, insertGiver, insertReceiver, List.filter,
    specMatchWithin, matchLoop, round2, eps, abs_of_nonneg, abs_of_nonpos,
    min_def, List.foldr]

/-- C3 (amended): with the advance rule read strictly — a participant is
passed over only once their balance magnitude falls strictly below ε —
the claim's algorithm (partition at ±ε, stable ascending/descending
sorts, settle `min(|debtor|, creditor)`, emit rounded edges only above ε,
stop when either list is exhausted) produces exactly the code's output on
every balance map. -/
theorem C3_algorithm_description_amended (nb : NetBalance) :
    specSimplifyStrict nb = simplifyDebts nb := by
  simp only [specSimplifyStrict, simplifyDebts, giversOf, receiversOf]
  exact specMatchStrict_eq_matchLoop _ _ _

/-! ### Claim C1: settlement correctness -/

theorem emittedFrom_nil (k : Participant) : emittedFrom [] k = 0 := rfl

theorem emittedTo_nil (k : Participant) : emittedTo [] k = 0 := rfl

theorem emittedFrom_cons (e : SettlementEdge) (es : List SettlementEdge)
    (k : Participant) :
    emittedFrom (e :: es) k =
      (if e.from_ = k then e.amount else 0) + emittedFrom es k := by
  rw [emittedFrom, emittedFrom, List.filter_cons]
  by_cases h : e.from_ = k
  · simp [h]
  · simp [h]

theorem emittedTo_cons (e : SettlementEdge) (es : List SettlementEdge)
    (k : Participant) :
    emittedTo (e :: es) k =
      (if e.to_ = k then e.amount else 0) + emittedTo es k := by
  rw [emittedTo, emittedTo, List.filter_cons]
  by_cases h : e.to_ = k
  · simp [h]
  · simp [h]

theorem emittedFrom_append (l₁ l₂ : List SettlementEdge) (k : Participant) :
    emittedFrom (l₁ ++ l₂) k = emittedFrom l₁ k + emittedFrom l₂ k := by
  induction l₁ with
  | nil => simp [emittedFrom_nil]
  | cons e es ih =>
    rw [List.cons_append, emittedFrom_cons, emittedFrom_cons, ih]
    ring

theorem emittedTo_append (l₁ l₂ : List SettlementEdge) (k : Participant) :
    emittedTo (l₁ ++ l₂) k = emittedTo l₁ k + emittedTo l₂ k := by
  induction l₁ with
  | nil => simp [emittedTo_nil]
  | cons e es ih =>
    rw [List.cons_append, emittedTo_cons, emittedTo_cons, ih]
    ring

/-- A nonzero nonnegative whole-cent amount is at least one cent. -/
theorem centQ_ge_eps {q : ℚ} (hq : centQ q) (h0 : 0 ≤ q) (hne : q ≠ 0) :
    eps ≤ q := by
  by_contra h
  push_neg at h
  exact hne (centQ_small hq h0 h)

/-- A nonzero nonpositive whole-cent amount is at most minus one cent. -/
theorem centQ_le_neg_eps {q : ℚ} (hq : centQ q) (h0 : q ≤ 0) (hne : q ≠ 0) :
    q ≤ -eps := by
  have := centQ_ge_eps (centQ_neg hq) (by linarith) (by simpa using hne)
  linarith

/-- A list of amounts that are all at least ε cannot sum to zero unless it
is empty. -/
theorem eps_list_sum_zero {l : List (Participant × ℚ)}
    (hpos : ∀ p ∈ l, eps ≤ p.2) (hsum : (l.map Prod.snd).sum = 0) : l = [] := by
  cases l with
  | nil => rfl
  | cons p l =>
    exfalso
    have hp : eps ≤ p.2 := hpos p (List.mem_cons_self p l)
    have hrest : 0 ≤ (l.map Prod.snd).sum := by
      apply List.sum_nonneg
      intro x hx
      obtain ⟨q, hq, rfl⟩ := List.mem_map.mp hx
      have := hpos q (List.mem_cons_of_mem p hq)
      have := eps_pos
      linarith
    rw [List.map_cons, List.sum_cons] at hsum
    have := eps_pos
    linarith

/-- Mirror image: all at most −ε and summing to zero forces emptiness. -/
theorem neg_eps_list_sum_zero {l : List (Participant × ℚ)}
    (hneg : ∀ p ∈ l, p.2 ≤ -eps) (hsum : (l.map Prod.snd).sum = 0) : l = [] := by
  induction l with
  | nil => rfl
  | cons p l ih =>
    exfalso
    have hp : p.2 ≤ -eps := hneg p (List.mem_cons_self p l)
    have hrest : (l.map Prod.snd).sum ≤ 0 := by
      clear hsum ih
      induction l with
      | nil => simp
      | cons q t iht =>
        rw [List.map_cons, List.sum_cons]
        have hq : q.2 ≤ -eps := hneg q (List.mem_cons_of_mem p (List.mem_cons_self q t))
        have ht : (t.map Prod.snd).sum ≤ 0 := by
          apply iht
          intro x hx
          rcases List.mem_cons.mp hx with h | h
          · exact hneg x (h ▸ List.mem_cons_self p (q :: t))
          · exact hneg x (List.mem_cons_of_mem p (List.mem_cons_of_mem q h))
        have := eps_pos
        linarith
    rw [List.map_cons, List.sum_cons] at hsum
    have := eps_pos
    linarith

theorem mem_head?_cons {α : Type} (a : α) (l : List α) : a ∈ (a :: l).head? := rfl

theorem all_of_head_tail {α : Type} {l : List α} {P : α → Prop}
    (hh : ∀ x ∈ l.head?, P x) (ht : ∀ x ∈ l.tail, P x) : ∀ x ∈ l, P x := by
  cases l with
  | nil => intro x hx; simp at hx
  | cons a t =>
    intro x hx
    rcases List.mem_cons.mp hx with h | h
    · rw [h]
      exact hh a (mem_head?_cons a t)
    · exact ht x h

theorem emittedFrom_step (c : Prop) [Decidable c] (gk rk : Participant) (a : ℚ)
    (E : List SettlementEdge) (k : Participant) :
    emittedFrom ((if c then [⟨gk, rk, a⟩] else []) ++ E) k =
      (if c ∧ gk = k then a else 0) + emittedFrom E k := by
  rw [emittedFrom_append]
  by_cases h : c
  · rw [if_pos h, emittedFrom_cons, emittedFrom_nil]
    by_cases h2 : gk = k
    · rw [if_pos h2, if_pos ⟨h, h2⟩]
      ring
    · rw [if_neg h2, if_neg (fun hc => h2 hc.2)]
      ring
  · rw [if_neg h, emittedFrom_nil, if_neg (fun hc => h hc.1)]

theorem emittedTo_step (c : Prop) [Decidable c] (gk rk : Participant) (a : ℚ)
    (E : List SettlementEdge) (k : Participant) :
    emittedTo ((if c then [⟨gk, rk, a⟩] else []) ++ E) k =
      (if c ∧ rk = k then a else 0) + emittedTo E k := by
  rw [emittedTo_append]
  by_cases h : c
  · rw [if_pos h, emittedTo_cons, emittedTo_nil]
    by_cases h2 : rk = k
    · rw [if_pos h2, if_pos ⟨h, h2⟩]
      ring
    · rw [if_neg h2, if_neg (fun hc => h2 hc.2)]
      ring
  · rw [if_neg h, emittedTo_nil, if_neg (fun hc => h hc.1)]

theorem eq_of_mem_head?_cons {α : Type} {x a : α} {l : List α}
    (h : x ∈ (a :: l).head?) : x = a :=
  (Option.some_inj.mp h).symm

/-- Invariant of the greedy loop on whole-cent states, tracking for each
current head the settlement amount it has already had silently settled
(`dg` for the head giver, `dr` for the head receiver: settled amounts that
never became edges because they did not exceed ε).  Provided every giver
is at most −ε (tails fresh at ≤ −2ε), every receiver at least ε (tails
fresh at ≥ 2ε), all amounts whole cents, keys distinct and disjoint, the
head discrepancies at most ε each (and zero opposite a head sitting at
exactly ±ε), and the active amounts summing to zero, the loop fully
drains both sides and each participant's original amount differs from
their total emitted edge amount by at most 2ε. -/
theorem settle_invariant :
    ∀ (f : ℕ) (gs rs : List (Participant × ℚ)) (dg dr : ℚ),
      gs.length + rs.length ≤ f →
      (∀ p ∈ gs, centQ p.2) → (∀ p ∈ rs, centQ p.2) →
      (∀ p ∈ gs.head?, p.2 ≤ -eps) → (∀ p ∈ rs.head?, eps ≤ p.2) →
      (∀ p ∈ gs.tail, p.2 ≤ -(2/100)) → (∀ p ∈ rs.tail, 2/100 ≤ p.2) →
      (gs.map Prod.fst).Nodup → (rs.map Prod.fst).Nodup →
      (∀ k ∈ gs.map Prod.fst, k ∉ rs.map Prod.fst) →
      0 ≤ dg → dg ≤ eps → 0 ≤ dr → dr ≤ eps →
      (∀ p ∈ gs.head?, p.2 = -eps → dr = 0) →
      (∀ p ∈ rs.head?, p.2 = eps → dg = 0) →
      (gs.map Prod.snd).sum + (rs.map Prod.snd).sum = 0 →
      (∀ p ∈ gs.head?, dg - 2/100 ≤ p.2 + emittedFrom (matchLoop f gs rs) p.1 ∧
          p.2 + emittedFrom (matchLoop f gs rs) p.1 ≤ 0) ∧
        (∀ p ∈ gs.tail, -(2/100) ≤ p.2 + emittedFrom (matchLoop f gs rs) p.1 ∧
          p.2 + emittedFrom (matchLoop f gs rs) p.1 ≤ 0) ∧
        (∀ p ∈ rs.head?, 0 ≤ p.2 - emittedTo (matchLoop f gs rs) p.1 ∧
          p.2 - emittedTo (matchLoop f gs rs) p.1 ≤ 2/100 - dr) ∧
        (∀ p ∈ rs.tail, 0 ≤ p.2 - emittedTo (matchLoop f gs rs) p.1 ∧
          p.2 - emittedTo (matchLoop f gs rs) p.1 ≤ 2/100) ∧
        (∀ k, k ∉ gs.map Prod.fst → emittedFrom (matchLoop f gs rs) k = 0) ∧
        (∀ k, k ∉ rs.map Prod.fst → emittedTo (matchLoop f gs rs) k = 0) := by
  intro f
  induction f with
  | zero =>
    intro gs rs dg dr hlen hgc hrc hgh hrh hgt hrt hgnd hrnd hdisj hdg1 hdg2
      hdr1 hdr2 hsideg hsider hsum
    have hgs : gs = [] := by
      cases gs with
      | nil => rfl
      | cons a l => simp at hlen
    have hrs : rs = [] := by
      cases rs with
      | nil => rfl
      | cons a l =>
        rw [hgs] at hlen
        simp at hlen
    subst hgs
    subst hrs
    rw [matchLoop_nil_left]
    refine ⟨?_, ?_, ?_, ?_, ?_, ?_⟩
    · intro x hx
      simp at hx
    · intro x hx
      simp at hx
    · intro x hx
      simp at hx
    · intro x hx
      simp at hx
    · intro k _
      rw [emittedFrom_nil]
    · intro k _
      rw [emittedTo_nil]
  | succ f ih =>
    intro gs rs dg dr hlen hgc hrc hgh hrh hgt hrt hgnd hrnd hdisj hdg1 hdg2
      hdr1 hdr2 hsideg hsider hsum
    have heps := eps_pos
    have hepsv : eps = 1/100 := rfl
    rcases gs with _ | ⟨g, gt⟩
    · -- no givers: the receivers must already be empty
      have hrall : ∀ p ∈ rs, eps ≤ p.2 :=
        all_of_head_tail hrh (fun p hp => by
          have := hrt p hp
          linarith)
      have hrs : rs = [] := by
        apply eps_list_sum_zero hrall
        simpa using hsum
      subst hrs
      rw [matchLoop_nil_left]
      refine ⟨?_, ?_, ?_, ?_, ?_, ?_⟩
      · intro x hx
        simp at hx
      · intro x hx
        simp at hx
      · intro x hx
        simp at hx
      · intro x hx
        simp at hx
      · intro k _
        rw [emittedFrom_nil]
      · intro k _
        rw [emittedTo_nil]
    rcases rs with _ | ⟨r, rt⟩
    · -- no receivers: the givers must already be empty
      have hgall : ∀ p ∈ g :: gt, p.2 ≤ -eps :=
        all_of_head_tail hgh (fun p hp => by
          have := hgt p hp
          linarith)
      have hgs : g :: gt = [] := by
        apply neg_eps_list_sum_zero hgall
        simpa using hsum
      simp at hgs
    -- main case: a giver and a receiver are both active
    rw [matchLoop_cons]
    set s := min (|g.2|) r.2 with hs_def
    have hghead : g.2 ≤ -eps := hgh g (mem_head?_cons g gt)
    have hrhead : eps ≤ r.2 := hrh r (mem_head?_cons r rt)
    have hgneg : g.2 < 0 := by linarith
    have habs : |g.2| = -g.2 := abs_of_neg hgneg
    have hgcent : centQ g.2 := hgc g (List.mem_cons_self g gt)
    have hrcent : centQ r.2 := hrc r (List.mem_cons_self r rt)
    have hscent : centQ s := by
      rw [hs_def]
      exact centQ_min (centQ_abs hgcent) hrcent
    have hs_lb : eps ≤ s := by
      rw [hs_def]
      exact le_min (by rw [habs]; linarith) hrhead
    have hs_le_g : s ≤ -g.2 := by
      rw [hs_def, habs]
      exact min_le_left _ _
    have hs_le_r : s ≤ r.2 := by
      rw [hs_def]
      exact min_le_right _ _
    have hg2cent : centQ (g.2 + s) := centQ_add hgcent hscent
    have hr2cent : centQ (r.2 - s) := centQ_sub hrcent hscent
    have hg2_le : g.2 + s ≤ 0 := by linarith
    have hr2_ge : 0 ≤ r.2 - s := by linarith
    simp only [List.length_cons] at hlen
    simp only [List.map_cons, List.nodup_cons] at hgnd hrnd
    simp only [List.map_cons, List.mem_cons] at hdisj
    simp only [List.map_cons, List.sum_cons] at hsum
    have hcase : (g.2 + s = 0 ∧ r.2 - s = 0) ∨
        (g.2 + s = 0 ∧ eps ≤ r.2 - s) ∨
        ((g.2 + s ≤ -eps) ∧ r.2 - s = 0) := by
      rcases min_cases (|g.2|) r.2 with ⟨hmin, _⟩ | ⟨hmin, _⟩ <;>
        rw [← hs_def] at hmin
      · have hg0 : g.2 + s = 0 := by
          rw [hmin, habs]
          ring
        by_cases hrz : r.2 - s = 0
        · exact Or.inl ⟨hg0, hrz⟩
        · exact Or.inr (Or.inl ⟨hg0, centQ_ge_eps hr2cent hr2_ge hrz⟩)
      · have hr0 : r.2 - s = 0 := by
          rw [hmin]
          ring
        by_cases hgz : g.2 + s = 0
        · exact Or.inl ⟨hgz, hr0⟩
        · exact Or.inr (Or.inr ⟨centQ_le_neg_eps hg2cent hg2_le hgz, hr0⟩)
    have hg1_notin_gt : g.1 ∉ gt.map Prod.fst := hgnd.1
    have hr1_notin_rt : r.1 ∉ rt.map Prod.fst := hrnd.1
    rcases hcase with ⟨hg0, hr0⟩ | ⟨hg0, hr2pos⟩ | ⟨hg2neg, hr0⟩
    · -- CASE A1: both the giver and the receiver are fully settled
      have e1 : |g.2 + s| < eps := by
        rw [hg0, abs_zero]
        exact heps
      have e2 : r.2 - s < eps := by
        rw [hr0]
        exact heps
      rw [if_pos e1, if_pos e2]
      obtain ⟨ihGh, ihGt, ihRh, ihRt, ihPF, ihPT⟩ :=
        ih gt rt 0 0 (by omega)
          (fun p hp => hgc p (List.mem_cons_of_mem g hp))
          (fun p hp => hrc p (List.mem_cons_of_mem r hp))
          (fun p hp => by
            have := hgt p (List.mem_of_mem_head? hp)
            linarith)
          (fun p hp => by
            have := hrt p (List.mem_of_mem_head? hp)
            linarith)
          (fun p hp => hgt p (List.mem_of_mem_tail hp))
          (fun p hp => hrt p (List.mem_of_mem_tail hp))
          hgnd.2 hrnd.2
          (fun k hk => by
            have := hdisj k (Or.inr hk)
            intro hmem
            exact this (Or.inr hmem))
          le_rfl (le_of_lt heps) le_rfl (le_of_lt heps)
          (fun _ _ _ => rfl) (fun _ _ _ => rfl)
          (by linarith)
      refine ⟨?_, ?_, ?_, ?_, ?_, ?_⟩
      · -- head giver, now settled
        intro x hx
        rw [eq_of_mem_head?_cons hx]
        rw [emittedFrom_step, ihPF g.1 hg1_notin_gt]
        by_cases hsil : s = eps
        · rw [if_neg (fun hc => absurd hc.1 (by rw [hsil]; exact lt_irrefl eps))]
          constructor <;> linarith
        · have hsgt : s > eps := lt_of_le_of_ne hs_lb (Ne.symm hsil)
          rw [if_pos ⟨hsgt, rfl⟩, round2_centQ hscent]
          constructor <;> linarith
      · -- tail givers
        intro p hp
        have hkey : ¬ (g.1 = p.1) := by
          intro h
          exact hg1_notin_gt (h ▸ List.mem_map_of_mem Prod.fst hp)
        rw [emittedFrom_step, if_neg (fun hc => hkey hc.2)]
        have hall : ∀ x ∈ gt,
            -(2/100) ≤ x.2 + emittedFrom (matchLoop f gt rt) x.1 ∧
              x.2 + emittedFrom (matchLoop f gt rt) x.1 ≤ 0 := by
          apply all_of_head_tail
          · intro x hx
            obtain ⟨h1, h2⟩ := ihGh x hx
            exact ⟨by linarith, h2⟩
          · exact ihGt
        obtain ⟨h1, h2⟩ := hall p hp
        constructor <;> linarith
      · -- head receiver, now settled
        intro x hx
        rw [eq_of_mem_head?_cons hx]
        rw [emittedTo_step, ihPT r.1 hr1_notin_rt]
        by_cases hsil : s = eps
        · rw [if_neg (fun hc => absurd hc.1 (by rw [hsil]; exact lt_irrefl eps))]
          constructor <;> linarith
        · have hsgt : s > eps := lt_of_le_of_ne hs_lb (Ne.symm hsil)
          rw [if_pos ⟨hsgt, rfl⟩, round2_centQ hscent]
          constructor <;> linarith
      · -- tail receivers
        intro p hp
        have hkey : ¬ (r.1 = p.1) := by
          intro h
          exact hr1_notin_rt (h ▸ List.mem_map_of_mem Prod.fst hp)
        rw [emittedTo_step, if_neg (fun hc => hkey hc.2)]
        have hall : ∀ x ∈ rt,
            0 ≤ x.2 - emittedTo (matchLoop f gt rt) x.1 ∧
              x.2 - emittedTo (matchLoop f gt rt) x.1 ≤ 2/100 := by
          apply all_of_head_tail
          · intro x hx
            obtain ⟨h1, h2⟩ := ihRh x hx
            exact ⟨h1, by linarith⟩
          · exact ihRt
        obtain ⟨h1, h2⟩ := hall p hp
        constructor <;> linarith
      · -- no edges from keys outside the givers
        intro k hk
        simp only [List.map_cons, List.mem_cons] at hk
        push_neg at hk
        rw [emittedFrom_step, if_neg (fun hc => hk.1 hc.2.symm),
          ihPF k hk.2]
        ring
      · -- no edges to keys outside the receivers
        intro k hk
        simp only [List.map_cons, List.mem_cons] at hk
        push_neg at hk
        rw [emittedTo_step, if_neg (fun hc => hk.1 hc.2.symm),
          ihPT k hk.2]
        ring
    · -- CASE A2: the giver is settled, the receiver stays active
      have e1 : |g.2 + s| < eps := by
        rw [hg0, abs_zero]
        exact heps
      have e2 : ¬ (r.2 - s < eps) := not_lt.mpr hr2pos
      rw [if_pos e1, if_neg e2]
      have hsil_dr : s = eps → dr = 0 := by
        intro hsil
        exact hsideg g (mem_head?_cons g gt) (by linarith)
      have hdr'0 : (0:ℚ) ≤ (if s = eps then dr + eps else dr) := by
        by_cases hsil : s = eps
        · rw [if_pos hsil]
          linarith
        · rw [if_neg hsil]
          exact hdr1
      have hdr'e : (if s = eps then dr + eps else dr) ≤ eps := by
        by_cases hsil : s = eps
        · rw [if_pos hsil, hsil_dr hsil]
          linarith
        · rw [if_neg hsil]
          exact hdr2
      obtain ⟨ihGh, ihGt, ihRh, ihRt, ihPF, ihPT⟩ :=
        ih gt ((r.1, r.2 - s) :: rt) 0 (if s = eps then dr + eps else dr)
          (by simp only [List.length_cons]; omega)
          (fun p hp => hgc p (List.mem_cons_of_mem g hp))
          (fun p hp => by
            rcases List.mem_cons.mp hp with h | h
            · rw [h]
              exact hr2cent
            · exact hrc p (List.mem_cons_of_mem r h))
          (fun p hp => by
            have := hgt p (List.mem_of_mem_head? hp)
            linarith)
          (fun p hp => by
            rw [eq_of_mem_head?_cons hp]
            exact hr2pos)
          (fun p hp => hgt p (List.mem_of_mem_tail hp))
          (fun p hp => hrt p hp)
          hgnd.2
          (by
            simp only [List.map_cons, List.nodup_cons]
            exact hrnd)
          (fun k hk => by
            have := hdisj k (Or.inr hk)
            simp only [List.map_cons, List.mem_cons]
            intro hmem
            exact this hmem)
          le_rfl (le_of_lt heps) hdr'0 hdr'e
          (fun p hp heq => by
            exfalso
            have := hgt p (List.mem_of_mem_head? hp)
            rw [heq, hepsv] at this
            linarith)
          (fun _ _ _ => rfl)
          (by
            simp only [List.map_cons, List.sum_cons]
            linarith)
      refine ⟨?_, ?_, ?_, ?_, ?_, ?_⟩
      · -- head giver, now settled
        intro x hx
        rw [eq_of_mem_head?_cons hx]
        rw [emittedFrom_step, ihPF g.1 hg1_notin_gt]
        by_cases hsil : s = eps
        · rw [if_neg (fun hc => absurd hc.1 (by rw [hsil]; exact lt_irrefl eps))]
          constructor <;> linarith
        · have hsgt : s > eps := lt_of_le_of_ne hs_lb (Ne.symm hsil)
          rw [if_pos ⟨hsgt, rfl⟩, round2_centQ hscent]
          constructor <;> linarith
      · -- tail givers
        intro p hp
        have hkey : ¬ (g.1 = p.1) := by
          intro h
          exact hg1_notin_gt (h ▸ List.mem_map_of_mem Prod.fst hp)
        rw [emittedFrom_step, if_neg (fun hc => hkey hc.2)]
        have hall : ∀ x ∈ gt,
            -(2/100) ≤ x.2 + emittedFrom (matchLoop f gt ((r.1, r.2 - s) :: rt)) x.1 ∧
              x.2 + emittedFrom (matchLoop f gt ((r.1, r.2 - s) :: rt)) x.1 ≤ 0 := by
          apply all_of_head_tail
          · intro x hx
            obtain ⟨h1, h2⟩ := ihGh x hx
            exact ⟨by linarith, h2⟩
          · exact ihGt
        obtain ⟨h1, h2⟩ := hall p hp
        constructor <;> linarith
      · -- head receiver, partially settled, stays in front
        intro x hx
        rw [eq_of_mem_head?_cons hx]
        rw [emittedTo_step]
        obtain ⟨h1, h2⟩ := ihRh (r.1, r.2 - s)
          (mem_head?_cons (r.1, r.2 - s) rt)
        by_cases hsil : s = eps
        · rw [if_neg (fun hc => absurd hc.1 (by rw [hsil]; exact lt_irrefl eps))]
          rw [if_pos hsil] at h2
          have hdr0 := hsil_dr hsil
          constructor <;> simp only [] at h1 h2 ⊢ <;> linarith
        · have hsgt : s > eps := lt_of_le_of_ne hs_lb (Ne.symm hsil)
          rw [if_pos ⟨hsgt, rfl⟩, round2_centQ hscent]
          rw [if_neg hsil] at h2
          constructor <;> simp only [] at h1 h2 ⊢ <;> linarith
      · -- tail receivers
        intro p hp
        have hkey : ¬ (r.1 = p.1) := by
          intro h
          exact hr1_notin_rt (h ▸ List.mem_map_of_mem Prod.fst hp)
        rw [emittedTo_step, if_neg (fun hc => hkey hc.2)]
        obtain ⟨h1, h2⟩ := ihRt p hp
        constructor <;> linarith
      · -- no edges from keys outside the givers
        intro k hk
        simp only [List.map_cons, List.mem_cons] at hk
        push_neg at hk
        rw [emittedFrom_step, if_neg (fun hc => hk.1 hc.2.symm),
          ihPF k hk.2]
        ring
      · -- no edges to keys outside the receivers
        intro k hk
        simp only [List.map_cons, List.mem_cons] at hk
        push_neg at hk
        rw [emittedTo_step, if_neg (fun hc => hk.1 hc.2.symm),
          ihPT k (by
            simp only [List.map_cons, List.mem_cons]
            push_neg
            exact hk)]
        ring
    · -- CASE B: the receiver is settled, the giver stays active
      have e1 : ¬ (|g.2 + s| < eps) := by
        rw [abs_of_nonpos hg2_le]
        push_neg
        linarith
      have e2 : r.2 - s < eps := by
        rw [hr0]
        exact heps
      rw [if_neg e1, if_pos e2]
      have hsil_dg : s = eps → dg = 0 := by
        intro hsil
        exact hsider r (mem_head?_cons r rt) (by linarith)
      have hdg'0 : (0:ℚ) ≤ (if s = eps then dg + eps else dg) := by
        by_cases hsil : s = eps
        · rw [if_pos hsil]
          linarith
        · rw [if_neg hsil]
          exact hdg1
      have hdg'e : (if s = eps then dg + eps else dg) ≤ eps := by
        by_cases hsil : s = eps
        · rw [if_pos hsil, hsil_dg hsil]
          linarith
        · rw [if_neg hsil]
          exact hdg2
      obtain ⟨ihGh, ihGt, ihRh, ihRt, ihPF, ihPT⟩ :=
        ih ((g.1, g.2 + s) :: gt) rt (if s = eps then dg + eps else dg) 0
          (by simp only [List.length_cons]; omega)
          (fun p hp => by
            rcases List.mem_cons.mp hp with h | h
            · rw [h]
              exact hg2cent
            · exact hgc p (List.mem_cons_of_mem g h))
          (fun p hp => hrc p (List.mem_cons_of_mem r hp))
          (fun p hp => by
            rw [eq_of_mem_head?_cons hp]
            exact hg2neg)
          (fun p hp => by
            have := hrt p (List.mem_of_mem_head? hp)
            linarith)
          (fun p hp => hgt p hp)
          (fun p hp => hrt p (List.mem_of_mem_tail hp))
          (by
            simp only [List.map_cons, List.nodup_cons]
            exact hgnd)
          hrnd.2
          (fun k hk => by
            simp only [List.map_cons, List.mem_cons] at hk
            have := hdisj k hk
            intro hmem
            exact this (Or.inr hmem))
          hdg'0 hdg'e le_rfl (le_of_lt heps)
          (fun _ _ _ => rfl)
          (fun p hp heq => by
            exfalso
            have := hrt p (List.mem_of_mem_head? hp)
            rw [heq, hepsv] at this
            linarith)
          (by
            simp only [List.map_cons, List.sum_cons]
            linarith)
      refine ⟨?_, ?_, ?_, ?_, ?_, ?_⟩
      · -- head giver, partially settled, stays in front
        intro x hx
        rw [eq_of_mem_head?_cons hx]
        rw [emittedFrom_step]
        obtain ⟨h1, h2⟩ := ihGh (g.1, g.2 + s)
          (mem_head?_cons (g.1, g.2 + s) gt)
        by_cases hsil : s = eps
        · rw [if_neg (fun hc => absurd hc.1 (by rw [hsil]; exact lt_irrefl eps))]
          rw [if_pos hsil] at h1
          have hdg0 := hsil_dg hsil
          constructor <;> simp only [] at h1 h2 ⊢ <;> linarith
        · have hsgt : s > eps := lt_of_le_of_ne hs_lb (Ne.symm hsil)
          rw [if_pos ⟨hsgt, rfl⟩, round2_centQ hscent]
          rw [if_neg hsil] at h1
          constructor <;> simp only [] at h1 h2 ⊢ <;> linarith
      · -- tail givers
        intro p hp
        have hkey : ¬ (g.1 = p.1) := by
          intro h
          exact hg1_notin_gt (h ▸ List.mem_map_of_mem Prod.fst hp)
        rw [emittedFrom_step, if_neg (fun hc => hkey hc.2)]
        obtain ⟨h1, h2⟩ := ihGt p hp
        constructor <;> linarith
      · -- head receiver, now settled
        intro x hx
        rw [eq_of_mem_head?_cons hx]
        rw [emittedTo_step, ihPT r.1 hr1_notin_rt]
        by_cases hsil : s = eps
        · rw [if_neg (fun hc => absurd hc.1 (by rw [hsil]; exact lt_irrefl eps))]
          constructor <;> linarith
        · have hsgt : s > eps := lt_of_le_of_ne hs_lb (Ne.symm hsil)
          rw [if_pos ⟨hsgt, rfl⟩, round2_centQ hscent]
          constructor <;> linarith
      · -- tail receivers
        intro p hp
        have hkey : ¬ (r.1 = p.1) := by
          intro h
          exact hr1_notin_rt (h ▸ List.mem_map_of_mem Prod.fst hp)
        rw [emittedTo_step, if_neg (fun hc => hkey hc.2)]
        have hall : ∀ x ∈ rt,
            0 ≤ x.2 - emittedTo (matchLoop f ((g.1, g.2 + s) :: gt) rt) x.1 ∧
              x.2 - emittedTo (matchLoop f ((g.1, g.2 + s) :: gt) rt) x.1 ≤ 2/100 := by
          apply all_of_head_tail
          · intro x hx
            obtain ⟨h1, h2⟩ := ihRh x hx
            exact ⟨h1, by linarith⟩
          · exact ihRt
        obtain ⟨h1, h2⟩ := hall p hp
        constructor <;> linarith
      · -- no edges from keys outside the givers
        intro k hk
        simp only [List.map_cons, List.mem_cons] at hk
        push_neg at hk
        rw [emittedFrom_step, if_neg (fun hc => hk.1 hc.2.symm),
          ihPF k (by
            simp only [List.map_cons, List.mem_cons]
            push_neg
            exact hk)]
        ring
      · -- no edges to keys outside the receivers
        intro k hk
        simp only [List.map_cons, List.mem_cons] at hk
        push_neg at hk
        rw [emittedTo_step, if_neg (fun hc => hk.1 hc.2.symm),
          ihPT k hk.2]
        ring

/-- On a map whose near-zero entries are exactly zero, the giver and
receiver partitions carry the whole sum. -/
theorem sum_partition (nb : NetBalance)
    (hres : ∀ p ∈ nb, p.2 = 0 ∨ 2/100 ≤ |p.2|) :
    ((giversOf nb).map Prod.snd).sum + ((receiversOf nb).map Prod.snd).sum =
      sumBal nb := by
  induction nb with
  | nil => simp [giversOf, receiversOf, sumBal]
  | cons p l ih =>
    have hres' : ∀ q ∈ l, q.2 = 0 ∨ 2/100 ≤ |q.2| :=
      fun q hq => hres q (List.mem_cons_of_mem p hq)
    have ihl := ih hres'
    rw [giversOf, receiversOf, List.filter_cons, List.filter_cons] at *
    rw [sumBal, List.map_cons, List.sum_cons]
    by_cases h1 : p.2 < -eps
    · have h2 : ¬ (p.2 > eps) := by
        have := eps_pos
        push_neg
        linarith
      simp only [h1, h2, decide_True, decide_False, Bool.false_eq_true, if_true, if_false,
        List.map_cons, List.sum_cons]
      rw [sumBal] at ihl
      linarith
    · by_cases h2 : p.2 > eps
      · simp only [h1, h2, decide_True, decide_False, Bool.false_eq_true, if_true, if_false,
          List.map_cons, List.sum_cons]
        rw [sumBal] at ihl
        linarith
      · have hz : p.2 = 0 := by
          rcases hres p (List.mem_cons_self p l) with h | h
          · exact h
          · exfalso
            push_neg at h1 h2
            have habs : |p.2| ≤ eps := abs_le.mpr ⟨by linarith, h2⟩
            rw [eps] at habs
            linarith
        simp only [h1, h2, decide_True, decide_False, Bool.false_eq_true, if_true, if_false]
        rw [sumBal] at ihl
        rw [hz]
        linarith

/-- C1 (counterexample): settlement correctness fails as stated — even on
a map of whole-cent balances summing to exactly zero.  On
`{G1:−1.00, G2:−1.00, G3:−0.02, R1:1.01, R2:0.98, R3:0.03}` the loop lets
G2 settle 0.01 silently against R1 (the amount does not exceed ε, so no
edge is emitted), and G2's only edge carries 0.98: applying the edges
leaves G2 at −0.02, outside ε. -/
theorem C1_settlement_correct_counterexample :
    ¬ (∀ p ∈ applyEdges
        [("G1", -1), ("G2", -1), ("G3", -(1:ℚ)/50), ("R1", (101:ℚ)/100),
          ("R2", (49:ℚ)/50), ("R3", (3:ℚ)/100)]
        (simplifyDebts
          [("G1", -1), ("G2", -1), ("G3", -(1:ℚ)/50), ("R1", (101:ℚ)/100),
            ("R2", (49:ℚ)/50), ("R3", (3:ℚ)/100)]),
      |p.2| ≤ eps) := by
  norm_num +decide [applyEdges, simplifyDebts, giversOf, receiversOf,
    sortGivers, sortReceivers, insertGiver, insertReceiver, List.filter,
    matchLoop, round2, emittedFrom, emittedTo, eps, abs_of_nonneg,
    abs_of_nonpos, min_def]

/-- C1 (amended): for every NetBalance map with distinct keys whose
balances are whole cents, each either zero or at least two cents in
magnitude, and summing to exactly zero, applying every emitted
SettlementEdge back against the map (debtor balance += amount, creditor
balance −= amount) leaves every participant's adjusted balance within 2ε
of zero.  (The counterexample shows ε itself is not achievable: one
silent sub-ε settlement can displace a participant's applied balance by
up to ε, and a second by another ε; rounding of non-cent amounts and
maps that do not balance to zero break the property entirely, which the
whole-cent and zero-sum hypotheses exclude.) -/
theorem C1_settlement_correct_amended (nb : NetBalance)
    (hnd : (balKeys nb).Nodup)
    (hcent : ∀ p ∈ nb, centQ p.2)
    (hres : ∀ p ∈ nb, p.2 = 0 ∨ 2/100 ≤ |p.2|)
    (hsum : sumBal nb = 0) :
    ∀ p ∈ applyEdges nb (simplifyDebts nb), |p.2| ≤ 2/100 := by
  have heps := eps_pos
  have hepsv : eps = 1/100 := rfl
  intro p hp
  rw [applyEdges] at hp
  obtain ⟨q, hq, rfl⟩ := List.mem_map.mp hp
  show |q.2 + emittedFrom (simplifyDebts nb) q.1 -
    emittedTo (simplifyDebts nb) q.1| ≤ 2/100
  rw [simplifyDebts_def]
  set gs₀ := sortGivers (giversOf nb) with hgs₀
  set rs₀ := sortReceivers (receiversOf nb) with hrs₀
  set E := matchLoop (gs₀.length + rs₀.length) gs₀ rs₀ with hE
  have hgall : ∀ x ∈ gs₀, x.2 ≤ -(2/100) := by
    intro x hx
    obtain ⟨hnb, hlt⟩ := mem_sortGivers_of_giversOf hx
    rcases hres x hnb with h | h
    · rw [h] at hlt
      linarith
    · have hneg : x.2 < 0 := by linarith
      rw [abs_of_neg hneg] at h
      linarith
  have hrall : ∀ x ∈ rs₀, 2/100 ≤ x.2 := by
    intro x hx
    obtain ⟨hnb, hgt'⟩ := mem_sortReceivers_of_receiversOf hx
    rcases hres x hnb with h | h
    · rw [h] at hgt'
      linarith
    · have hpos : 0 ≤ x.2 := by linarith
      rw [abs_of_nonneg hpos] at h
      exact h
  have hgnd₀ : (gs₀.map Prod.fst).Nodup := by
    have hsub : ((giversOf nb).map Prod.fst).Sublist (nb.map Prod.fst) :=
      (List.filter_sublist nb).map Prod.fst
    have hfil : ((giversOf nb).map Prod.fst).Nodup := hnd.sublist hsub
    exact ((sortGivers_perm (giversOf nb)).map Prod.fst).nodup_iff.mpr hfil
  have hrnd₀ : (rs₀.map Prod.fst).Nodup := by
    have hsub : ((receiversOf nb).map Prod.fst).Sublist (nb.map Prod.fst) :=
      (List.filter_sublist nb).map Prod.fst
    have hfil : ((receiversOf nb).map Prod.fst).Nodup := hnd.sublist hsub
    exact ((sortReceivers_perm (receiversOf nb)).map Prod.fst).nodup_iff.mpr hfil
  have hkey_disj : ∀ k ∈ gs₀.map Prod.fst, k ∉ rs₀.map Prod.fst := by
    intro k hkg hkr
    obtain ⟨a, ha, hak⟩ := List.mem_map.mp hkg
    obtain ⟨b, hb, hbk⟩ := List.mem_map.mp hkr
    exact givers_receivers_disjoint hnd a ha b hb (by rw [hak, hbk])
  have hsum₀ : (gs₀.map Prod.snd).sum + (rs₀.map Prod.snd).sum = 0 := by
    have h1 : (gs₀.map Prod.snd).sum = ((giversOf nb).map Prod.snd).sum :=
      ((sortGivers_perm (giversOf nb)).map Prod.snd).sum_eq
    have h2 : (rs₀.map Prod.snd).sum = ((receiversOf nb).map Prod.snd).sum :=
      ((sortReceivers_perm (receiversOf nb)).map Prod.snd).sum_eq
    rw [h1, h2, sum_partition nb hres, hsum]
  obtain ⟨mGh, mGt, mRh, mRt, mPF, mPT⟩ :=
    settle_invariant (gs₀.length + rs₀.length) gs₀ rs₀ 0 0 le_rfl
      (fun x hx => hcent x (mem_sortGivers_of_giversOf hx).1)
      (fun x hx => hcent x (mem_sortReceivers_of_receiversOf hx).1)
      (fun x hx => by
        have := hgall x (List.mem_of_mem_head? hx)
        linarith)
      (fun x hx => by
        have := hrall x (List.mem_of_mem_head? hx)
        linarith)
      (fun x hx => hgall x (List.mem_of_mem_tail hx))
      (fun x hx => hrall x (List.mem_of_mem_tail hx))
      hgnd₀ hrnd₀ hkey_disj
      le_rfl (le_of_lt heps) le_rfl (le_of_lt heps)
      (fun _ _ _ => rfl) (fun _ _ _ => rfl)
      hsum₀
  have hG : ∀ x ∈ gs₀, -(2/100) ≤ x.2 + emittedFrom E x.1 ∧
      x.2 + emittedFrom E x.1 ≤ 0 := by
    apply all_of_head_tail
    · intro x hx
      obtain ⟨h1, h2⟩ := mGh x hx
      exact ⟨by linarith, h2⟩
    · exact mGt
  have hR : ∀ x ∈ rs₀, 0 ≤ x.2 - emittedTo E x.1 ∧
      x.2 - emittedTo E x.1 ≤ 2/100 := by
    apply all_of_head_tail
    · intro x hx
      obtain ⟨h1, h2⟩ := mRh x hx
      exact ⟨h1, by linarith⟩
    · exact mRt
  by_cases hq1 : q.2 < -eps
  · have hqg : q ∈ gs₀ := by
      rw [hgs₀]
      apply (sortGivers_perm _).mem_iff.mpr
      rw [giversOf]
      exact List.mem_filter.mpr ⟨hq, by simpa using hq1⟩
    have hqnotr : q.1 ∉ rs₀.map Prod.fst :=
      hkey_disj q.1 (List.mem_map_of_mem Prod.fst hqg)
    obtain ⟨h1, h2⟩ := hG q hqg
    rw [mPT q.1 hqnotr]
    rw [abs_le]
    constructor <;> linarith
  · by_cases hq2 : q.2 > eps
    · have hqr : q ∈ rs₀ := by
        rw [hrs₀]
        apply (sortReceivers_perm _).mem_iff.mpr
        rw [receiversOf]
        exact List.mem_filter.mpr ⟨hq, by simpa using hq2⟩
      have hqnotg : q.1 ∉ gs₀.map Prod.fst := by
        intro hmem
        exact hkey_disj q.1 hmem (List.mem_map_of_mem Prod.fst hqr)
      obtain ⟨h1, h2⟩ := hR q hqr
      rw [mPF q.1 hqnotg]
      rw [abs_le]
      constructor <;> linarith
    · have hq0 : q.2 = 0 := by
        rcases hres q hq with h | h
        · exact h
        · exfalso
          push_neg at hq1 hq2
          have habs : |q.2| ≤ eps := abs_le.mpr ⟨by linarith, hq2⟩
          rw [hepsv] at habs
          linarith
      have hqng : q.1 ∉ gs₀.map Prod.fst := by
        intro hmem
        obtain ⟨a, ha, hak⟩ := List.mem_map.mp hmem
        obtain ⟨hanb, halt⟩ := mem_sortGivers_of_giversOf ha
        have : a = q := nodup_key_eq nb hnd a hanb q hq hak
        rw [this, hq0] at halt
        linarith
      have hqnr : q.1 ∉ rs₀.map Prod.fst := by
        intro hmem
        obtain ⟨b, hb, hbk⟩ := List.mem_map.mp hmem
        obtain ⟨hbnb, hbgt⟩ := mem_sortReceivers_of_receiversOf hb
        have : b = q := nodup_key_eq nb hnd b hbnb q hq hbk
        rw [this, hq0] at hbgt
        linarith
      rw [mPF q.1 hqng, mPT q.1 hqnr, hq0]
      norm_num

theorem C1_settlement_correct_amended_witness :
    (balKeys [("A", 1), ("B", -1)]).Nodup ∧
      (∀ p ∈ ([("A", 1), ("B", -1)] : NetBalance), centQ p.2) ∧
      (∀ p ∈ ([("A", 1), ("B", -1)] : NetBalance), p.2 = 0 ∨ 2/100 ≤ |p.2|) ∧
      sumBal [("A", 1), ("B", -1)] = 0 ∧
      ∀ p ∈ applyEdges [("A", 1), ("B", -1)]
          (simplifyDebts [("A", 1), ("B", -1)]), |p.2| ≤ 2/100 := by
  have h1 : (balKeys [("A", 1), ("B", -1)]).Nodup := by decide
  have h2 : ∀ p ∈ ([("A", 1), ("B", -1)] : NetBalance), centQ p.2 := by
    intro p hp
    simp only [List.mem_cons, List.not_mem_nil, or_false] at hp
    rcases hp with rfl | rfl
    · exact ⟨100, by norm_num⟩
    · exact ⟨-100, by norm_num⟩
  have h3 : ∀ p ∈ ([("A", 1), ("B", -1)] : NetBalance),
      p.2 = 0 ∨ 2/100 ≤ |p.2| := by
    intro p hp
    simp only [List.mem_cons, List.not_mem_nil, or_false] at hp
    rcases hp with rfl | rfl
    · right
      norm_num
    · right
      norm_num
  have h4 : sumBal [("A", 1), ("B", -1)] = 0 := by
    norm_num [sumBal]
  exact ⟨h1, h2, h3, h4, C1_settlement_correct_amended _ h1 h2 h3 h4⟩
